import Mathlib

/-!
Verification development for the storage-mapping layer of libtorrent
(`src/storage_utils.cpp`): buffer-slice utilities (`copy_bufs`,
`advance_bufs`), the vectored piece I/O engine (`readwritev`) and the
storage relocation engine (`move_storage`).

Buffers (`iovec_t`) are modelled as lists of bytes; a buffer list is a
list of such lists.  Machine integers are modelled as `Nat`/`Int` (all
quantities involved are small and non-negative in the source except the
`-1` failure return, which is modelled in `Int`).  The external
collaborators (the virtual file layout, the file-operation strategy and
the filesystem primitives) are modelled from their interface contracts;
their definitions carry a note where that is the case.
-/

namespace StorageUtils

/-- A single `iovec_t` buffer, modelled by the bytes it covers. -/
abbrev Buf := List Nat

/-- `bufs_size(bufs)`: total number of bytes covered by a buffer list. -/
def bufsSize (bufs : List Buf) : Nat := (bufs.map List.length).sum

/-- `copy_bufs(bufs, bytes, target)`: copy buffers into `target` until
`bytes` bytes are covered, truncating the last copied buffer so the copy
covers exactly `bytes` bytes.  The source returns the number of elements
written into `target`; the model returns that count together with the
written prefix of `target`.  Running off the end of `bufs` is an
out-of-bounds access in the source and is modelled by `none`. -/
def copy_bufs : List Buf → Nat → Option (Nat × List Buf)
  | [], _ => none
  | b :: rest, bytes =>
    if bytes ≤ b.length then some (1, [b.take bytes])
    else
      match copy_bufs rest (bytes - b.length) with
      | none => none
      | some (k, l) => some (k + 1, b :: l)

/-- `advance_bufs(bufs, bytes)`: drop fully consumed leading buffers and
advance the base pointer of the straddling buffer, returning the view of
`bufs` with the first `bytes` bytes consumed.  Running off the end of
`bufs` is modelled by `none`. -/
def advance_bufs : List Buf → Nat → Option (List Buf)
  | [], _ => none
  | b :: rest, bytes =>
    if bytes ≤ b.length then some (b.drop bytes :: rest)
    else advance_bufs rest (bytes - b.length)

/-- Operation tags recorded in the structured error carrier
(`storage_error::operation_t`). -/
inductive OpTag
  | unknown
  | stat
  | mkdir
  | rename
  | partfile_move
  | fileop
deriving DecidableEq

/-- The structured error carrier (`storage_error`): an optional system
error code (`none` = no error), the implicated file index (`-1` = no
specific file) and an operation tag. -/
structure StorageError where
  ec : Option Nat := none
  file : Int := -1
  operation : OpTag := OpTag.unknown
deriving DecidableEq

/-- A cleared error carrier, as passed into the engines by callers. -/
def ec0 : StorageError := {}

/-- Result of one `fileop::file_op` call: a transferred byte count, or an
error written into the carrier.  Per the collaborator contract the error
identifies the failing file index and operation kind. -/
inductive FileOpR
  | ok (bytes : Nat)
  | err (e : StorageError)
deriving DecidableEq

/-- The abstract file-operation strategy (read or write, chosen by the
caller): file index, in-file offset and buffer list to transfer. -/
abbrev FileOp := Nat → Nat → List Buf → FileOpR

/-- Modelled from the spec: the virtual file layout collaborator
(`file_storage`, not part of the core source).  An ordered sequence of
file byte sizes plus the torrent-wide piece length; cumulative offsets
place each file in the flat virtual address space. -/
structure Layout where
  sizes : List Nat
  pieceLength : Nat
deriving DecidableEq

def Layout.numFiles (L : Layout) : Nat := L.sizes.length

/-- `file_size(i)` (0 for an out-of-range index; the engine never asks
for one). -/
def Layout.fileSize (L : Layout) (i : Nat) : Nat := L.sizes.getD i 0

/-- Cumulative byte offset of file `i` in a list of file sizes. -/
def offAt (sizes : List Nat) (i : Nat) : Nat := (sizes.take i).sum

/-- `file_offset(i)`: cumulative byte offset of file `i` in the virtual
address space. -/
def Layout.fileOffset (L : Layout) (i : Nat) : Nat := offAt L.sizes i

/-- Total virtual size of the layout. -/
def Layout.totalSize (L : Layout) : Nat := L.sizes.sum

/-- Modelled from the spec: `file_index_at_offset(off)` — the last file
whose cumulative offset is at most `off` (the source implements it as
`upper_bound` over the cumulative offsets, minus one). -/
def findFile : List Nat → Nat → Nat
  | [], _ => 0
  | [_], _ => 0
  | s :: rest, off => if off < s then 0 else findFile rest (off - s) + 1

def Layout.fileIndexAtOffset (L : Layout) (off : Nat) : Nat := findFile L.sizes off

/-- One `file_op` invocation as observed from outside: which file, at
which in-file offset, over which buffers, and what the strategy
returned. -/
structure Call where
  fileIndex : Nat
  fileOffset : Nat
  bufs : List Buf
  result : FileOpR
deriving DecidableEq

/-- The inner skip loop of `readwritev` (source lines 145–158): starting
from (`fi`, `fo`), recompute `file_bytes_left` and advance over files
with no bytes left.  Returns `none` when advancing runs past the last
file (the source then returns `size`), otherwise the resting file index,
in-file offset and the per-file byte count (always positive).  The
`fuel` argument only bounds the iteration; `L.numFiles + 1` is always
sufficient since the index grows by one per step and the loop stops at
`L.numFiles`. -/
def nextNonempty (L : Layout) (bytesLeft : Nat) : Nat → Nat → Nat → Option (Nat × Nat × Nat)
  | 0, _, _ => none
  | fuel + 1, fi, fo =>
    let fbl := min bytesLeft (L.fileSize fi - fo)
    if fbl = 0 then
      if L.numFiles ≤ fi + 1 then none
      else nextNonempty L bytesLeft fuel (fi + 1) 0
    else some (fi, fo, fbl)

/-- The main transfer loop of `readwritev` (source lines 137–186),
returning the source's `int` result, the final error carrier and the
sequence of `file_op` calls made.  `none` models an out-of-bounds buffer
access (never reached from `readwritev`'s entry conditions).  `fuel`
bounds the iteration; `size + 1` is sufficient because `bytesLeft`
strictly decreases on every recursive call. -/
def rwLoop (L : Layout) (op : FileOp) (size : Nat) :
    Nat → Nat → Nat → Nat → List Buf → Option (Int × StorageError × List Call)
  | 0, _, _, _, _ => none
  | fuel + 1, bytesLeft, fi, fo, current =>
    if bytesLeft = 0 then some ((size : Int), ec0, [])
    else
      match nextNonempty L bytesLeft (L.numFiles + 1) fi fo with
      | none => some ((size : Int), ec0, [])
      | some (fi2, fo2, fbl) =>
        match copy_bufs current fbl with
        | none => none
        | some (_, tmp) =>
          match op fi2 fo2 tmp with
          | FileOpR.err e => some ((-1 : Int), e, [⟨fi2, fo2, tmp, FileOpR.err e⟩])
          | FileOpR.ok k =>
            match advance_bufs current k with
            | none => none
            | some cur2 =>
              if k = 0 then
                some (((size - bytesLeft : Nat) : Int),
                  (if 0 < fbl then { ec0 with file := (fi2 : Int) } else ec0),
                  [⟨fi2, fo2, tmp, FileOpR.ok 0⟩])
              else
                match rwLoop L op size fuel (bytesLeft - k) fi2 (fo2 + k) cur2 with
                | none => none
                | some (r, e, calls) => some (r, e, ⟨fi2, fo2, tmp, FileOpR.ok k⟩ :: calls)

/-- `readwritev(files, bufs, piece, offset, op, ec)` (source lines
98–188): map a piece/offset/buffer-list request onto a sequence of
per-file operations.  Returns the source's `int` result, the final error
carrier and the trace of `file_op` calls; `none` models an out-of-bounds
buffer access. -/
def readwritev (L : Layout) (bufs : List Buf) (piece offset : Nat) (op : FileOp) :
    Option (Int × StorageError × List Call) :=
  let size := bufsSize bufs
  let torrentOffset := piece * L.pieceLength + offset
  let fileIndex := L.fileIndexAtOffset torrentOffset
  let fileOffset := torrentOffset - L.fileOffset fileIndex
  match copy_bufs bufs size with
  | none => none
  | some (_, current) => rwLoop L op size (size + 1) size fileIndex fileOffset current

/-- The canonical decomposition of the byte range starting at global
offset `pos` with length `n` into per-file chunks `(index, in-file
offset, length)`, walking the file sizes from the front.  A file is
skipped when the position is at or past its end, so zero-length files
never produce a chunk. -/
def specChunks : List Nat → Nat → Nat → List (Nat × Nat × Nat)
  | [], _, _ => []
  | s :: rest, pos, n =>
    if n = 0 then []
    else if s ≤ pos then
      (specChunks rest (pos - s) n).map (fun c => (c.1 + 1, c.2.1, c.2.2))
    else
      (0, pos, min n (s - pos)) ::
        (specChunks rest 0 (n - min n (s - pos))).map (fun c => (c.1 + 1, c.2.1, c.2.2))

/-- Cut a buffer list along a chunk list, producing the `file_op` call
each chunk gives rise to under a full-echoing strategy. -/
def chunkCalls : List (Nat × Nat × Nat) → List Buf → List Call
  | [], _ => []
  | c :: rest, cur =>
    match copy_bufs cur c.2.2, advance_bufs cur c.2.2 with
    | some (_, tmp), some cur2 =>
      ⟨c.1, c.2.1, tmp, FileOpR.ok (bufsSize tmp)⟩ :: chunkCalls rest cur2
    | _, _ => []

/-! ### Basic buffer lemmas -/

theorem bufsSize_nil : bufsSize [] = 0 := rfl

theorem bufsSize_cons (b : Buf) (rest : List Buf) :
    bufsSize (b :: rest) = b.length + bufsSize rest := by
  simp [bufsSize]

theorem bufsSize_eq_flatten_length (B : List Buf) : bufsSize B = B.flatten.length := by
  induction B with
  | nil => rfl
  | cons b rest ih => simp [bufsSize_cons, ih]

theorem ne_nil_of_bufsSize_pos {B : List Buf} (h : 0 < bufsSize B) : B ≠ [] := by
  intro hB; subst hB; simp [bufsSize] at h

/-- Characterization of `copy_bufs` on in-bounds requests: it succeeds,
returns the number of buffers written, and the written buffers cover
exactly the first `n` bytes. -/
theorem copy_bufs_eq (B : List Buf) (n : Nat) (hB : B ≠ []) (hn : n ≤ bufsSize B) :
    ∃ l, copy_bufs B n = some (l.length, l) ∧ bufsSize l = n ∧
      l.flatten = B.flatten.take n := by
  induction B generalizing n with
  | nil => exact absurd rfl hB
  | cons b rest ih =>
    by_cases hle : n ≤ b.length
    · refine ⟨[b.take n], ?_, ?_, ?_⟩
      · simp [copy_bufs, hle]
      · simp [bufsSize, Nat.min_eq_left hle]
      · simp [List.take_append_of_le_length hle]
    · have hrest : n - b.length ≤ bufsSize rest := by
        have := bufsSize_cons b rest ▸ hn; omega
      have hrne : rest ≠ [] := by
        apply ne_nil_of_bufsSize_pos; omega
      obtain ⟨l, hcp, hsz, hfl⟩ := ih (n - b.length) hrne hrest
      refine ⟨b :: l, ?_, ?_, ?_⟩
      · simp [copy_bufs, hle, hcp]
      · simp [bufsSize_cons, hsz]; omega
      · simp [hfl, List.take_append_eq_append_take]
        omega

/-- Characterization of `advance_bufs` on in-bounds requests: it
succeeds and the returned view covers exactly the bytes after the first
`n`. -/
theorem advance_bufs_eq (B : List Buf) (n : Nat) (hB : B ≠ []) (hn : n ≤ bufsSize B) :
    ∃ l, advance_bufs B n = some l ∧ bufsSize l = bufsSize B - n ∧
      l.flatten = B.flatten.drop n := by
  induction B generalizing n with
  | nil => exact absurd rfl hB
  | cons b rest ih =>
    by_cases hle : n ≤ b.length
    · refine ⟨b.drop n :: rest, ?_, ?_, ?_⟩
      · simp [advance_bufs, hle]
      · simp [bufsSize_cons]; omega
      · simp [List.drop_append_eq_append_drop, Nat.sub_eq_zero_of_le hle]
    · have hrest : n - b.length ≤ bufsSize rest := by
        have := bufsSize_cons b rest ▸ hn; omega
      have hrne : rest ≠ [] := by
        apply ne_nil_of_bufsSize_pos; omega
      obtain ⟨l, hcp, hsz, hfl⟩ := ih (n - b.length) hrne hrest
      refine ⟨l, ?_, ?_, ?_⟩
      · simp [advance_bufs, hle, hcp]
      · simp [hsz, bufsSize_cons]; omega
      · simp [hfl, List.drop_append_eq_append_drop]
        omega

/-- Claim C2: for every buffer list `B` and every `n` with `0 < n` and
`n` at most the total length of `B`, `copy_bufs` produces a buffer list
of total length exactly `n` and returns the number of elements it wrote,
and the bytes covered by `copy_bufs B n` followed by the bytes covered
by `advance_bufs B n` are exactly the bytes of `B` in order. -/
theorem C2_copy_advance_partition (B : List Buf) (n : Nat)
    (hpos : 0 < n) (hn : n ≤ bufsSize B) :
    ∃ k l l', copy_bufs B n = some (k, l) ∧ advance_bufs B n = some l' ∧
      bufsSize l = n ∧ k = l.length ∧
      l.flatten ++ l'.flatten = B.flatten := by
  have hB : B ≠ [] := ne_nil_of_bufsSize_pos (lt_of_lt_of_le hpos hn)
  obtain ⟨l, hcp, hsz, hfl⟩ := copy_bufs_eq B n hB hn
  obtain ⟨l', hav, hsz', hfl'⟩ := advance_bufs_eq B n hB hn
  exact ⟨l.length, l, l', hcp, hav, hsz, rfl, by rw [hfl, hfl', List.take_append_drop]⟩

/-- Witness for C2 at a concrete input. -/
theorem C2_copy_advance_partition_witness :
    0 < 3 ∧ 3 ≤ bufsSize [[1,2],[3,4],[5]] ∧
    (∃ k l l', copy_bufs [[1,2],[3,4],[5]] 3 = some (k, l) ∧
      advance_bufs [[1,2],[3,4],[5]] 3 = some l' ∧
      bufsSize l = 3 ∧ k = l.length ∧
      l.flatten ++ l'.flatten = ([[1,2],[3,4],[5]] : List Buf).flatten) :=
  ⟨by decide, by decide, C2_copy_advance_partition [[1,2],[3,4],[5]] 3 (by decide) (by decide)⟩

/-! ### Layout and `findFile` lemmas -/

theorem offAt_zero (sizes : List Nat) : offAt sizes 0 = 0 := rfl

theorem offAt_cons_succ (s : Nat) (rest : List Nat) (i : Nat) :
    offAt (s :: rest) (i + 1) = s + offAt rest i := by
  simp [offAt]

theorem offAt_le_sum (sizes : List Nat) (i : Nat) : offAt sizes i ≤ sizes.sum := by
  conv_rhs => rw [← List.take_append_drop i sizes]
  rw [List.sum_append]
  exact Nat.le_add_right _ _

theorem offAt_length (sizes : List Nat) : offAt sizes sizes.length = sizes.sum := by
  simp [offAt]

theorem offAt_succ (sizes : List Nat) (i : Nat) (h : i < sizes.length) :
    offAt sizes (i + 1) = offAt sizes i + sizes.getD i 0 := by
  induction sizes generalizing i with
  | nil => simp at h
  | cons s rest ih =>
    cases i with
    | zero => simp [offAt]
    | succ j =>
      have := ih j (by simpa using h)
      simp [offAt_cons_succ, this]
      omega

theorem findFile_lt_length (sizes : List Nat) (off : Nat) (h : sizes ≠ []) :
    findFile sizes off < sizes.length := by
  induction sizes generalizing off with
  | nil => exact absurd rfl h
  | cons s rest ih =>
    cases rest with
    | nil => simp [findFile]
    | cons t rest2 =>
      by_cases hlt : off < s
      · simp [findFile, hlt]
      · have h2 := ih (off - s) (by simp)
        simp at h2
        simp [findFile, hlt]
        omega

theorem offAt_findFile_le (sizes : List Nat) (off : Nat) :
    offAt sizes (findFile sizes off) ≤ off := by
  induction sizes generalizing off with
  | nil => simp [findFile, offAt]
  | cons s rest ih =>
    cases rest with
    | nil => simp [findFile, offAt]
    | cons t rest2 =>
      by_cases hlt : off < s
      · simp [findFile, hlt, offAt]
      · have := ih (off - s)
        simp [findFile, hlt, offAt_cons_succ]
        omega

theorem lt_offAt_findFile_add (sizes : List Nat) (off : Nat) (h : off < sizes.sum) :
    off < offAt sizes (findFile sizes off) + sizes.getD (findFile sizes off) 0 := by
  induction sizes generalizing off with
  | nil => simp at h
  | cons s rest ih =>
    cases rest with
    | nil =>
      simp [findFile, offAt]
      simpa using h
    | cons t rest2 =>
      by_cases hlt : off < s
      · simp [findFile, hlt, offAt]
      · have hr : off - s < (t :: rest2).sum := by
          simp at h ⊢; omega
        have ih2 := ih (off - s) hr
        have hff : findFile (s :: t :: rest2) off = findFile (t :: rest2) (off - s) + 1 := by
          simp [findFile, hlt]
        rw [hff, offAt_cons_succ, List.getD_cons_succ]
        omega

theorem findFile_spec (sizes : List Nat) (off i : Nat) (hi : i < sizes.length)
    (h1 : offAt sizes i ≤ off) (h2 : off < offAt sizes i + sizes.getD i 0) :
    findFile sizes off = i := by
  induction sizes generalizing off i with
  | nil => simp at hi
  | cons s rest ih =>
    cases rest with
    | nil =>
      cases i with
      | zero => simp [findFile]
      | succ j => simp at hi
    | cons t rest2 =>
      cases i with
      | zero =>
        simp [offAt] at h1 h2
        simp [findFile, h2]
      | succ j =>
        have hs : s ≤ off := by
          rw [offAt_cons_succ] at h1; omega
        have hj : j < (t :: rest2).length := by simpa using hi
        have h1' : offAt (t :: rest2) j ≤ off - s := by
          rw [offAt_cons_succ] at h1; omega
        have h2' : off - s < offAt (t :: rest2) j + (t :: rest2).getD j 0 := by
          rw [offAt_cons_succ, List.getD_cons_succ] at h2; omega
        have hrec := ih (off - s) j hj h1' h2'
        have hff : findFile (s :: t :: rest2) off = findFile (t :: rest2) (off - s) + 1 := by
          simp [findFile, Nat.not_lt.mpr hs]
        rw [hff, hrec]

theorem Layout.fileSize_def (L : Layout) (i : Nat) : L.fileSize i = L.sizes.getD i 0 := rfl

theorem Layout.fileOffset_def (L : Layout) (i : Nat) : L.fileOffset i = offAt L.sizes i := rfl

theorem Layout.numFiles_def (L : Layout) : L.numFiles = L.sizes.length := rfl

theorem Layout.totalSize_def (L : Layout) : L.totalSize = L.sizes.sum := rfl

/-! ### The inner skip loop -/

/-- When the current global position is strictly inside the virtual
address space, the skip loop rests on the file found by
`file_index_at_offset` for that position, with the matching in-file
offset and a positive per-file byte count. -/
theorem nextNonempty_found (L : Layout) (bl : Nat) (hbl : 1 ≤ bl) :
    ∀ fuel fi fo, fi < L.sizes.length → fo ≤ L.sizes.getD fi 0 →
      offAt L.sizes fi + fo < L.sizes.sum → L.sizes.length - fi ≤ fuel →
      nextNonempty L bl fuel fi fo =
        some (findFile L.sizes (offAt L.sizes fi + fo),
          offAt L.sizes fi + fo - offAt L.sizes (findFile L.sizes (offAt L.sizes fi + fo)),
          min bl (L.sizes.getD (findFile L.sizes (offAt L.sizes fi + fo)) 0 -
            (offAt L.sizes fi + fo - offAt L.sizes (findFile L.sizes (offAt L.sizes fi + fo))))) := by
  intro fuel
  induction fuel with
  | zero =>
    intro fi fo h1 _ _ h4
    omega
  | succ fuel ih =>
    intro fi fo h1 h2 h3 h4
    by_cases hfo : fo < L.sizes.getD fi 0
    · have hj := findFile_spec L.sizes (offAt L.sizes fi + fo) fi h1
        (Nat.le_add_right _ _) (by omega)
      have hfbl : ¬ min bl (L.sizes.getD fi 0 - fo) = 0 := by omega
      simp only [nextNonempty, Layout.fileSize_def, Layout.numFiles_def]
      rw [if_neg hfbl, hj, Nat.add_sub_cancel_left]
    · have hfo2 : fo = L.sizes.getD fi 0 := by omega
      have hfbl : min bl (L.sizes.getD fi 0 - fo) = 0 := by omega
      have hpos : offAt L.sizes (fi + 1) + 0 = offAt L.sizes fi + fo := by
        rw [offAt_succ _ _ h1]; omega
      have hlt : fi + 1 < L.sizes.length := by
        by_contra hc
        have hfi1 : fi + 1 = L.sizes.length := by omega
        have h5 : offAt L.sizes (fi + 1) = L.sizes.sum := by rw [hfi1, offAt_length]
        omega
      have hnend : ¬ L.sizes.length ≤ fi + 1 := by omega
      have hstep : nextNonempty L bl (fuel + 1) fi fo = nextNonempty L bl fuel (fi + 1) 0 := by
        simp only [nextNonempty, Layout.fileSize_def, Layout.numFiles_def]
        rw [if_pos hfbl, if_neg hnend]
      rw [hstep, ih (fi + 1) 0 hlt (Nat.zero_le _) (by omega) (by omega), hpos]

/-- When the current global position is already at the end of the
virtual address space (with bytes still owed), the skip loop runs past
the last file. -/
theorem nextNonempty_past (L : Layout) (bl : Nat) (hbl : 1 ≤ bl) :
    ∀ fuel fi fo, fi < L.sizes.length → fo ≤ L.sizes.getD fi 0 →
      offAt L.sizes fi + fo = L.sizes.sum → L.sizes.length - fi ≤ fuel →
      nextNonempty L bl fuel fi fo = none := by
  intro fuel
  induction fuel with
  | zero =>
    intro fi fo h1 _ _ h4
    omega
  | succ fuel ih =>
    intro fi fo h1 h2 h3 h4
    have hoff1 : offAt L.sizes (fi + 1) = offAt L.sizes fi + L.sizes.getD fi 0 :=
      offAt_succ _ _ h1
    have hle1 : offAt L.sizes (fi + 1) ≤ L.sizes.sum := offAt_le_sum _ _
    have hfo2 : fo = L.sizes.getD fi 0 := by omega
    have hfbl : min bl (L.sizes.getD fi 0 - fo) = 0 := by omega
    simp only [nextNonempty, Layout.fileSize_def, Layout.numFiles_def]
    rw [if_pos hfbl]
    by_cases hend : L.sizes.length ≤ fi + 1
    · rw [if_pos hend]
    · rw [if_neg hend]
      exact ih (fi + 1) 0 (by omega) (Nat.zero_le _) (by omega) (by omega)

/-! ### Chunk decomposition lemmas -/

theorem findFile_cons_of_lt (s : Nat) (rest : List Nat) (pos : Nat) (h : pos < s) :
    findFile (s :: rest) pos = 0 := by
  cases rest with
  | nil => simp [findFile]
  | cons t rest2 => simp [findFile, h]

theorem specChunks_zero (sizes : List Nat) (pos : Nat) : specChunks sizes pos 0 = [] := by
  cases sizes <;> simp [specChunks]

theorem specChunks_of_sum_le (sizes : List Nat) :
    ∀ pos n, sizes.sum ≤ pos → specChunks sizes pos n = [] := by
  induction sizes with
  | nil => intro pos n _; simp [specChunks]
  | cons s rest ih =>
    intro pos n h
    simp only [List.sum_cons] at h
    by_cases hn : n = 0
    · simp [specChunks, hn]
    · have hs : s ≤ pos := by omega
      have h2 : rest.sum ≤ pos - s := by omega
      simp [specChunks, hn, hs, ih _ n h2]

/-- Unrolling `specChunks` one chunk at a time: at a position strictly
inside the virtual space with bytes still owed, the first chunk lives on
the file found by `findFile` and the rest continue past it. -/
theorem specChunks_cons_eq (sizes : List Nat) :
    ∀ pos n, pos < sizes.sum → 1 ≤ n →
      specChunks sizes pos n =
        (findFile sizes pos, pos - offAt sizes (findFile sizes pos),
          min n (sizes.getD (findFile sizes pos) 0 - (pos - offAt sizes (findFile sizes pos)))) ::
        specChunks sizes
          (pos + min n (sizes.getD (findFile sizes pos) 0 - (pos - offAt sizes (findFile sizes pos))))
          (n - min n (sizes.getD (findFile sizes pos) 0 - (pos - offAt sizes (findFile sizes pos)))) := by
  induction sizes with
  | nil => intro pos n h _; simp at h
  | cons s rest ih =>
    intro pos n hpos hn
    by_cases hslt : pos < s
    · have hff : findFile (s :: rest) pos = 0 := findFile_cons_of_lt s rest pos hslt
      have hn0 : ¬ n = 0 := by omega
      have hnsle : ¬ s ≤ pos := by omega
      rw [hff]
      simp only [List.getD_cons_zero, offAt_zero, Nat.sub_zero]
      conv_lhs => rw [specChunks]
      rw [if_neg hn0, if_neg hnsle]
      by_cases hrem : n - min n (s - pos) = 0
      · rw [hrem, specChunks_zero, List.map_nil]
        rw [specChunks_zero]
      · have hlen : min n (s - pos) = s - pos := by omega
        have hpl : pos + min n (s - pos) = s := by omega
        rw [hpl]
        conv_rhs => rw [specChunks]
        rw [if_neg hrem, if_pos (Nat.le_refl s), Nat.sub_self]
    · have hsle : s ≤ pos := by omega
      cases rest with
      | nil => simp at hpos; omega
      | cons t rest2 =>
        have hn0 : ¬ n = 0 := by omega
        have hpos' : pos - s < (t :: rest2).sum := by
          simp only [List.sum_cons] at hpos ⊢; omega
        have hoffle := offAt_findFile_le (t :: rest2) (pos - s)
        have hff : findFile (s :: t :: rest2) pos = findFile (t :: rest2) (pos - s) + 1 := by
          simp [findFile, hslt]
        rw [hff]
        rw [offAt_cons_succ, List.getD_cons_succ]
        have hfo : pos - (s + offAt (t :: rest2) (findFile (t :: rest2) (pos - s))) =
            pos - s - offAt (t :: rest2) (findFile (t :: rest2) (pos - s)) := by omega
        rw [hfo]
        conv_lhs => rw [specChunks]
        rw [if_neg hn0, if_pos hsle]
        rw [ih (pos - s) n hpos' hn]
        rw [List.map_cons]
        congr 1
        set j := findFile (t :: rest2) (pos - s) with hj
        set len := min n ((t :: rest2).getD j 0 - (pos - s - offAt (t :: rest2) j)) with hlen
        by_cases hrem : n - len = 0
        · rw [hrem, specChunks_zero, List.map_nil, specChunks_zero]
        · conv_rhs => rw [specChunks]
          rw [if_neg hrem, if_pos (by omega : s ≤ pos + len)]
          rw [show pos + len - s = pos - s + len from by omega]

/-- The chunk lengths of `specChunks` sum to the smaller of the request
and the bytes remaining in the virtual space. -/
theorem specChunks_lens_sum (sizes : List Nat) :
    ∀ pos n, pos ≤ sizes.sum →
      ((specChunks sizes pos n).map (fun c => c.2.2)).sum = min n (sizes.sum - pos) := by
  induction sizes with
  | nil =>
    intro pos n h
    simp only [List.sum_nil] at h ⊢
    simp [specChunks]
  | cons s rest ih =>
    intro pos n h
    by_cases hn : n = 0
    · simp [specChunks_zero, hn]
    · by_cases hsle : s ≤ pos
      · have h' : pos - s ≤ rest.sum := by simp only [List.sum_cons] at h; omega
        simp only [specChunks, if_neg hn, if_pos hsle, List.map_map]
        have hcomp : ((fun c : Nat × Nat × Nat => c.2.2) ∘
            (fun c : Nat × Nat × Nat => (c.1 + 1, c.2.1, c.2.2))) =
            (fun c : Nat × Nat × Nat => c.2.2) := rfl
        rw [hcomp, ih (pos - s) n h']
        simp only [List.sum_cons]
        omega
      · simp only [specChunks, if_neg hn, if_neg hsle, List.map_cons, List.map_map,
          List.sum_cons]
        have hcomp : ((fun c : Nat × Nat × Nat => c.2.2) ∘
            (fun c : Nat × Nat × Nat => (c.1 + 1, c.2.1, c.2.2))) =
            (fun c : Nat × Nat × Nat => c.2.2) := rfl
        rw [hcomp, ih 0 (n - min n (s - pos)) (Nat.zero_le _)]
        simp only [List.sum_cons, Nat.sub_zero]
        omega

/-- Every chunk produced by `specChunks` asks for at least one byte. -/
theorem specChunks_lens_pos (sizes : List Nat) :
    ∀ pos n c, c ∈ specChunks sizes pos n → 1 ≤ c.2.2 := by
  induction sizes with
  | nil => intro pos n c hc; simp [specChunks] at hc
  | cons s rest ih =>
    intro pos n c hc
    by_cases hn : n = 0
    · rw [hn, specChunks_zero] at hc; simp at hc
    · by_cases hsle : s ≤ pos
      · simp only [specChunks, if_neg hn, if_pos hsle, List.mem_map] at hc
        obtain ⟨c', hc', rfl⟩ := hc
        exact ih _ _ c' hc'
      · simp only [specChunks, if_neg hn, if_neg hsle, List.mem_cons, List.mem_map] at hc
        rcases hc with rfl | ⟨c', hc', rfl⟩
        · simp; omega
        · exact ih _ _ c' hc'

/-- Alignment of a chunk list with the layout: chunks cover consecutive
global positions starting at `pos`, each lying inside its file's bounds
with a valid file index. -/
def chunksAligned (sizes : List Nat) : Nat → List (Nat × Nat × Nat) → Prop
  | _, [] => True
  | pos, c :: rest =>
    offAt sizes c.1 + c.2.1 = pos ∧ c.2.1 + c.2.2 ≤ sizes.getD c.1 0 ∧
    c.1 < sizes.length ∧ chunksAligned sizes (pos + c.2.2) rest

theorem chunksAligned_shift (s : Nat) (rest : List Nat) :
    ∀ chunks pos, chunksAligned rest pos chunks →
      chunksAligned (s :: rest) (s + pos) (chunks.map (fun c => (c.1 + 1, c.2.1, c.2.2))) := by
  intro chunks
  induction chunks with
  | nil => intro pos _; trivial
  | cons c cs ih =>
    rcases c with ⟨i, o, l⟩
    intro pos h
    obtain ⟨h1, h2, h3, h4⟩ := h
    dsimp only at h1 h2 h3 h4
    simp only [List.map_cons]
    show offAt (s :: rest) (i + 1) + o = s + pos ∧
      o + l ≤ (s :: rest).getD (i + 1) 0 ∧
      i + 1 < (s :: rest).length ∧
      chunksAligned (s :: rest) (s + pos + l)
        (cs.map (fun c => (c.1 + 1, c.2.1, c.2.2)))
    refine ⟨?_, ?_, ?_, ?_⟩
    · rw [offAt_cons_succ]; omega
    · rw [List.getD_cons_succ]; exact h2
    · simp only [List.length_cons]; omega
    · have hih := ih (pos + l) h4
      rw [show s + pos + l = s + (pos + l) from by omega]
      exact hih

theorem specChunks_aligned (sizes : List Nat) :
    ∀ pos n, chunksAligned sizes pos (specChunks sizes pos n) := by
  induction sizes with
  | nil => intro pos n; simp only [specChunks]; trivial
  | cons s rest ih =>
    intro pos n
    by_cases hn : n = 0
    · rw [hn, specChunks_zero]; trivial
    · by_cases hsle : s ≤ pos
      · have hsh := chunksAligned_shift s rest (specChunks rest (pos - s) n) (pos - s)
          (ih (pos - s) n)
        rw [show s + (pos - s) = pos from by omega] at hsh
        simp only [specChunks, if_neg hn, if_pos hsle]
        exact hsh
      · simp only [specChunks, if_neg hn, if_neg hsle]
        refine ⟨by simp [offAt], by simp; omega, by simp, ?_⟩
        by_cases hmin : min n (s - pos) = s - pos
        · have hsh := chunksAligned_shift s rest
            (specChunks rest 0 (n - min n (s - pos))) 0 (ih 0 (n - min n (s - pos)))
          rw [Nat.add_zero] at hsh
          rw [show pos + min n (s - pos) = s from by omega]
          exact hsh
        · have hrem : n - min n (s - pos) = 0 := by omega
          rw [hrem, specChunks_zero, List.map_nil]
          trivial

/-- Cutting a buffer list along a well-formed chunk list recovers the
chunk shapes, covers exactly the summed bytes in order, and every
produced call carries a full-echo result. -/
theorem chunkCalls_spec :
    ∀ (chunks : List (Nat × Nat × Nat)) (cur : List Buf),
      (∀ c ∈ chunks, 1 ≤ c.2.2) →
      (chunks.map (fun c => c.2.2)).sum ≤ bufsSize cur →
      ((chunkCalls chunks cur).map (fun c => (c.fileIndex, c.fileOffset, bufsSize c.bufs))
          = chunks ∧
        ((chunkCalls chunks cur).map (fun c => c.bufs.flatten)).flatten
          = cur.flatten.take ((chunks.map (fun c => c.2.2)).sum) ∧
        ∀ c ∈ chunkCalls chunks cur, c.result = FileOpR.ok (bufsSize c.bufs)) := by
  intro chunks
  induction chunks with
  | nil =>
    intro cur _ _
    exact ⟨rfl, by simp [chunkCalls], by intro c hc; simp [chunkCalls] at hc⟩
  | cons c cs ih =>
    intro cur hpos hsum
    simp only [List.map_cons, List.sum_cons] at hsum
    have hc1 : 1 ≤ c.2.2 := hpos c (List.mem_cons_self c cs)
    have hcle : c.2.2 ≤ bufsSize cur := by omega
    have hcne : cur ≠ [] := ne_nil_of_bufsSize_pos (by omega)
    obtain ⟨l, hcp, hsz, hfl⟩ := copy_bufs_eq cur c.2.2 hcne hcle
    obtain ⟨l', hav, hsz', hfl'⟩ := advance_bufs_eq cur c.2.2 hcne hcle
    have hih := ih l' (fun c' hc' => hpos c' (List.mem_cons_of_mem c hc'))
      (by rw [hsz']; omega)
    obtain ⟨ih1, ih2, ih3⟩ := hih
    have hunfold : chunkCalls (c :: cs) cur =
        ⟨c.1, c.2.1, l, FileOpR.ok (bufsSize l)⟩ :: chunkCalls cs l' := by
      simp only [chunkCalls, hcp, hav]
    refine ⟨?_, ?_, ?_⟩
    · rw [hunfold, List.map_cons, ih1, hsz]
    · rw [hunfold, List.map_cons, List.flatten_cons, ih2, hfl, hfl']
      rw [List.map_cons, List.sum_cons, List.take_add]
    · intro c' hc'
      rw [hunfold] at hc'
      rcases List.mem_cons.mp hc' with rfl | hmem
      · rfl
      · exact ih3 c' hmem

/-! ### The transfer loop under a full-echo strategy -/

/-- Main loop invariant under a full-echoing strategy: starting from a
consistent position inside the virtual space with as much buffer as
bytes owed, the loop returns the full `size`, a clean error carrier, and
exactly the calls obtained by cutting the cursor along the canonical
chunk decomposition of the remaining range. -/
theorem rwLoop_echo (L : Layout) (op : FileOp)
    (hop : ∀ fi fo b, op fi fo b = FileOpR.ok (bufsSize b)) (size : Nat) :
    ∀ fuel bl fi fo current,
      bl + 1 ≤ fuel →
      bufsSize current = bl →
      fi < L.sizes.length →
      fo ≤ L.sizes.getD fi 0 →
      offAt L.sizes fi + fo ≤ L.sizes.sum →
      rwLoop L op size fuel bl fi fo current =
        some ((size : Int), ec0,
          chunkCalls (specChunks L.sizes (offAt L.sizes fi + fo) bl) current) := by
  intro fuel
  induction fuel with
  | zero => intro bl fi fo current h1 _ _ _ _; omega
  | succ fuel ih =>
    intro bl fi fo current h1 hsz hfi hfo hpos
    by_cases hbl : bl = 0
    · subst hbl
      simp [rwLoop, specChunks_zero, chunkCalls]
    · have hbl1 : 1 ≤ bl := by omega
      rcases Nat.lt_or_ge (offAt L.sizes fi + fo) L.sizes.sum with hlt | hge
      · have hnn := nextNonempty_found L bl hbl1 (L.numFiles + 1) fi fo hfi hfo hlt
          (by rw [Layout.numFiles_def]; omega)
        have hoffle : offAt L.sizes (findFile L.sizes (offAt L.sizes fi + fo)) ≤
            offAt L.sizes fi + fo := offAt_findFile_le _ _
        have hcontain := lt_offAt_findFile_add L.sizes (offAt L.sizes fi + fo) hlt
        have hjlt : findFile L.sizes (offAt L.sizes fi + fo) < L.sizes.length := by
          apply findFile_lt_length
          intro hnil
          rw [hnil] at hlt
          simp at hlt
        set pos := offAt L.sizes fi + fo with hposdef
        set j := findFile L.sizes pos with hjdef
        set fo2 := pos - offAt L.sizes j with hfo2def
        set fbl := min bl (L.sizes.getD j 0 - fo2) with hfbldef
        have hfo2lt : fo2 < L.sizes.getD j 0 := by omega
        have hfbl1 : 1 ≤ fbl := by omega
        have hfblbl : fbl ≤ bl := Nat.min_le_left _ _
        have hcne : current ≠ [] := ne_nil_of_bufsSize_pos (by omega)
        obtain ⟨tmp, hcp, htsz, _⟩ := copy_bufs_eq current fbl hcne (by omega)
        obtain ⟨cur2, hav, hasz, _⟩ := advance_bufs_eq current fbl hcne (by omega)
        have hoffj1 : offAt L.sizes (j + 1) = offAt L.sizes j + L.sizes.getD j 0 :=
          offAt_succ _ _ hjlt
        have hoffj1le : offAt L.sizes (j + 1) ≤ L.sizes.sum := offAt_le_sum _ _
        have hrec := ih (bl - fbl) j (fo2 + fbl) cur2 (by omega)
          (by rw [hasz, hsz]) hjlt (by omega) (by omega)
        have hposeq : offAt L.sizes j + (fo2 + fbl) = pos + fbl := by omega
        rw [hposeq] at hrec
        have hchunks := specChunks_cons_eq L.sizes pos bl hlt hbl1
        rw [← hjdef, ← hfo2def, ← hfbldef] at hchunks
        have hfblne : ¬ fbl = 0 := by omega
        calc rwLoop L op size (fuel + 1) bl fi fo current
            = some ((size : Int), ec0,
                (⟨j, fo2, tmp, FileOpR.ok (bufsSize tmp)⟩ : Call) ::
                  chunkCalls (specChunks L.sizes (pos + fbl) (bl - fbl)) cur2) := by
              simp only [rwLoop, if_neg hbl, hnn, hcp, hop, htsz, hav, if_neg hfblne, hrec]
          _ = some ((size : Int), ec0, chunkCalls (specChunks L.sizes pos bl) current) := by
              rw [hchunks]
              simp only [chunkCalls, hcp, hav]
      · have hge2 : offAt L.sizes fi + fo = L.sizes.sum := by
          have := offAt_le_sum L.sizes fi
          omega
        have hnn := nextNonempty_past L bl hbl1 (L.numFiles + 1) fi fo hfi hfo hge2
          (by rw [Layout.numFiles_def]; omega)
        rw [hge2, specChunks_of_sum_le L.sizes _ bl (Nat.le_refl _)]
        simp only [rwLoop, if_neg hbl, hnn, chunkCalls]

/-- Alignment of a call sequence with the layout: the calls cover
consecutive global positions starting at `pos`, each call lying inside
its file's bounds at a valid file index. -/
def callsAligned (L : Layout) : Nat → List Call → Prop
  | _, [] => True
  | pos, c :: rest =>
    L.fileOffset c.fileIndex + c.fileOffset = pos ∧
    c.fileOffset + bufsSize c.bufs ≤ L.fileSize c.fileIndex ∧
    c.fileIndex < L.numFiles ∧
    callsAligned L (pos + bufsSize c.bufs) rest

theorem callsAligned_of_chunks (L : Layout) :
    ∀ (calls : List Call) (chunks : List (Nat × Nat × Nat)) (pos : Nat),
      calls.map (fun c => (c.fileIndex, c.fileOffset, bufsSize c.bufs)) = chunks →
      chunksAligned L.sizes pos chunks → callsAligned L pos calls := by
  intro calls
  induction calls with
  | nil => intro chunks pos _ _; trivial
  | cons c cs ih =>
    intro chunks pos hmap hal
    subst hmap
    rw [List.map_cons] at hal
    obtain ⟨h1, h2, h3, h4⟩ := hal
    dsimp only at h1 h2 h3
    exact ⟨by rw [Layout.fileOffset_def]; exact h1,
      by rw [Layout.fileSize_def]; exact h2,
      by rw [Layout.numFiles_def]; exact h3,
      ih _ _ rfl h4⟩

/-- The full-echo file-operation strategy: it transfers exactly the
bytes requested of it and reports no error. -/
def echoOp : FileOp := fun _ _ b => FileOpR.ok (bufsSize b)

/-- Claim C1: for every file layout, every valid piece index and
in-piece offset, and every non-empty buffer list whose total length fits
within the remaining virtual size, if every `file_op` call transfers
exactly the number of bytes requested of it and reports no error, then
`readwritev` returns exactly the total buffer length, and the sequence
of `file_op` calls it makes receives contiguous sub-ranges of the input
buffers, at the correct per-file offsets, whose lengths sum to the total
request. -/
theorem C1_readwritev_full_transfer (L : Layout) (bufs : List Buf) (piece offset : Nat)
    (op : FileOp) (hop : ∀ fi fo b, op fi fo b = FileOpR.ok (bufsSize b))
    (hne : bufs ≠ []) (hpos : 0 < bufsSize bufs)
    (hfit : piece * L.pieceLength + offset + bufsSize bufs ≤ L.totalSize) :
    ∃ calls,
      readwritev L bufs piece offset op = some ((bufsSize bufs : Int), ec0, calls) ∧
      (calls.map (fun c => bufsSize c.bufs)).sum = bufsSize bufs ∧
      (calls.map (fun c => c.bufs.flatten)).flatten = bufs.flatten ∧
      (∀ c ∈ calls, c.result = FileOpR.ok (bufsSize c.bufs)) ∧
      callsAligned L (piece * L.pieceLength + offset) calls := by
  rw [Layout.totalSize_def] at hfit
  have hT : piece * L.pieceLength + offset < L.sizes.sum := by omega
  obtain ⟨current, hcp, hcsz, hcfl⟩ :=
    copy_bufs_eq bufs (bufsSize bufs) hne (Nat.le_refl _)
  have hcfl2 : current.flatten = bufs.flatten := by
    rw [hcfl, bufsSize_eq_flatten_length, List.take_length]
  have hsne : L.sizes ≠ [] := by
    intro hnil; rw [hnil] at hT; simp at hT
  have hfi : findFile L.sizes (piece * L.pieceLength + offset) < L.sizes.length :=
    findFile_lt_length _ _ hsne
  have hoffle := offAt_findFile_le L.sizes (piece * L.pieceLength + offset)
  have hcontain := lt_offAt_findFile_add L.sizes (piece * L.pieceLength + offset) hT
  have hposa : offAt L.sizes (findFile L.sizes (piece * L.pieceLength + offset)) +
      (piece * L.pieceLength + offset -
        offAt L.sizes (findFile L.sizes (piece * L.pieceLength + offset))) =
      piece * L.pieceLength + offset := by omega
  have main := rwLoop_echo L op hop (bufsSize bufs) (bufsSize bufs + 1) (bufsSize bufs)
    (findFile L.sizes (piece * L.pieceLength + offset))
    (piece * L.pieceLength + offset -
      offAt L.sizes (findFile L.sizes (piece * L.pieceLength + offset)))
    current (Nat.le_refl _) hcsz hfi (by omega) (by omega)
  rw [hposa] at main
  have hlpos := specChunks_lens_pos L.sizes (piece * L.pieceLength + offset) (bufsSize bufs)
  have hlsum := specChunks_lens_sum L.sizes (piece * L.pieceLength + offset) (bufsSize bufs)
    (by omega)
  have hmin : min (bufsSize bufs) (L.sizes.sum - (piece * L.pieceLength + offset)) =
      bufsSize bufs := by omega
  rw [hmin] at hlsum
  obtain ⟨k1, k2, k3⟩ := chunkCalls_spec
    (specChunks L.sizes (piece * L.pieceLength + offset) (bufsSize bufs)) current
    hlpos (by omega)
  refine ⟨chunkCalls (specChunks L.sizes (piece * L.pieceLength + offset) (bufsSize bufs))
    current, ?_, ?_, ?_, k3, ?_⟩
  · show readwritev L bufs piece offset op = _
    simp only [readwritev, hcp, Layout.fileIndexAtOffset, Layout.fileOffset_def]
    exact main
  · have := congrArg (List.map (fun c : Nat × Nat × Nat => c.2.2)) k1
    rw [List.map_map] at this
    have hcomp : ((fun c : Nat × Nat × Nat => c.2.2) ∘
        (fun c : Call => (c.fileIndex, c.fileOffset, bufsSize c.bufs))) =
        (fun c : Call => bufsSize c.bufs) := rfl
    rw [hcomp] at this
    rw [this, hlsum]
  · rw [k2, hlsum, hcfl2, bufsSize_eq_flatten_length, List.take_length]
  · exact callsAligned_of_chunks L _ _ _ k1
      (specChunks_aligned L.sizes (piece * L.pieceLength + offset) (bufsSize bufs))

/-- Witness for C1 at a concrete layout and request. -/
theorem C1_readwritev_full_transfer_witness :
    (([[9],[8,7]] : List Buf) ≠ [] ∧ 0 < bufsSize [[9],[8,7]] ∧
      0 * (Layout.mk [3,0,4] 4).pieceLength + 2 + bufsSize [[9],[8,7]] ≤
        (Layout.mk [3,0,4] 4).totalSize) ∧
    (∃ calls,
      readwritev (Layout.mk [3,0,4] 4) [[9],[8,7]] 0 2 echoOp =
        some ((bufsSize [[9],[8,7]] : Int), ec0, calls) ∧
      (calls.map (fun c => bufsSize c.bufs)).sum = bufsSize [[9],[8,7]] ∧
      (calls.map (fun c => c.bufs.flatten)).flatten = ([[9],[8,7]] : List Buf).flatten ∧
      (∀ c ∈ calls, c.result = FileOpR.ok (bufsSize c.bufs)) ∧
      callsAligned (Layout.mk [3,0,4] 4) (0 * (Layout.mk [3,0,4] 4).pieceLength + 2) calls) :=
  ⟨⟨by decide, by decide, by decide⟩,
    C1_readwritev_full_transfer (Layout.mk [3,0,4] 4) [[9],[8,7]] 0 2 echoOp
      (fun _ _ _ => rfl) (by decide) (by decide) (by decide)⟩

/-- `readwritev` under a full-echo strategy computes exactly the calls
obtained by cutting the copied cursor along the canonical chunk
decomposition, and returns the full requested size, whether or not the
request fits in the remaining virtual space. -/
theorem readwritev_echo_aux (L : Layout) (bufs : List Buf) (piece offset : Nat)
    (op : FileOp) (hop : ∀ fi fo b, op fi fo b = FileOpR.ok (bufsSize b))
    (current : List Buf)
    (hcp : copy_bufs bufs (bufsSize bufs) = some (current.length, current))
    (hcsz : bufsSize current = bufsSize bufs)
    (hT : piece * L.pieceLength + offset < L.totalSize) :
    readwritev L bufs piece offset op =
      some ((bufsSize bufs : Int), ec0,
        chunkCalls (specChunks L.sizes (piece * L.pieceLength + offset) (bufsSize bufs))
          current) := by
  rw [Layout.totalSize_def] at hT
  have hsne : L.sizes ≠ [] := by
    intro hnil; rw [hnil] at hT; simp at hT
  have hfi : findFile L.sizes (piece * L.pieceLength + offset) < L.sizes.length :=
    findFile_lt_length _ _ hsne
  have hoffle := offAt_findFile_le L.sizes (piece * L.pieceLength + offset)
  have hcontain := lt_offAt_findFile_add L.sizes (piece * L.pieceLength + offset) hT
  have hposa : offAt L.sizes (findFile L.sizes (piece * L.pieceLength + offset)) +
      (piece * L.pieceLength + offset -
        offAt L.sizes (findFile L.sizes (piece * L.pieceLength + offset))) =
      piece * L.pieceLength + offset := by omega
  have main := rwLoop_echo L op hop (bufsSize bufs) (bufsSize bufs + 1) (bufsSize bufs)
    (findFile L.sizes (piece * L.pieceLength + offset))
    (piece * L.pieceLength + offset -
      offAt L.sizes (findFile L.sizes (piece * L.pieceLength + offset)))
    current (Nat.le_refl _) hcsz hfi (by omega) (by omega)
  rw [hposa] at main
  simp only [readwritev, hcp, Layout.fileIndexAtOffset, Layout.fileOffset_def]
  exact main

theorem callsAligned_indices (L : Layout) :
    ∀ calls pos, callsAligned L pos calls → ∀ c ∈ calls, c.fileIndex < L.numFiles := by
  intro calls
  induction calls with
  | nil => intro pos _ c hc; simp at hc
  | cons d ds ih =>
    intro pos h c hc
    obtain ⟨_, _, h3, h4⟩ := h
    rcases List.mem_cons.mp hc with rfl | hm
    · exact h3
    · exact ih _ h4 c hm

/-- Counterexample to claim C3 as stated: over the single-file layout of
size 2 with piece length 2, a full-echoing request for 3 bytes starting
at piece 0, offset 0 transfers only 2 bytes (one call) but `readwritev`
returns the full requested total 3 — not the strictly smaller
transferred count the claim asserts. -/
theorem C3_counterexample :
    readwritev (Layout.mk [2] 2) [[9,9,9]] 0 0 echoOp =
      some ((3 : Int), ec0, [⟨0, 0, [[9,9]], FileOpR.ok 2⟩]) ∧
    bufsSize [[9,9,9]] = 3 ∧
    (([⟨0, 0, [[9,9]], FileOpR.ok 2⟩] : List Call).map (fun c => bufsSize c.bufs)).sum = 2 ∧
    ¬ ((3 : Int) < (3 : Int)) :=
  ⟨by decide, by decide, by decide, by decide⟩

/-- Claim C3, amended: for every layout and every `readwritev` call
whose buffer list totals more bytes than remain in the virtual address
space starting at the given piece and offset (with full-echoing,
error-free `file_op`s), `readwritev` never accesses a file index at or
past the end of the layout, transfers only the bytes that remain
(strictly fewer than requested), but returns the full requested total
`size` rather than the transferred count. -/
theorem C3_overlong_request (L : Layout) (bufs : List Buf) (piece offset : Nat)
    (op : FileOp) (hop : ∀ fi fo b, op fi fo b = FileOpR.ok (bufsSize b))
    (hne : bufs ≠ [])
    (hT : piece * L.pieceLength + offset < L.totalSize)
    (hover : L.totalSize < piece * L.pieceLength + offset + bufsSize bufs) :
    ∃ calls,
      readwritev L bufs piece offset op = some ((bufsSize bufs : Int), ec0, calls) ∧
      (calls.map (fun c => bufsSize c.bufs)).sum =
        L.totalSize - (piece * L.pieceLength + offset) ∧
      (calls.map (fun c => bufsSize c.bufs)).sum < bufsSize bufs ∧
      (∀ c ∈ calls, c.fileIndex < L.numFiles) ∧
      callsAligned L (piece * L.pieceLength + offset) calls := by
  obtain ⟨current, hcp, hcsz, hcfl⟩ :=
    copy_bufs_eq bufs (bufsSize bufs) hne (Nat.le_refl _)
  have hmain := readwritev_echo_aux L bufs piece offset op hop current hcp hcsz hT
  rw [Layout.totalSize_def] at hT hover ⊢
  have hlpos := specChunks_lens_pos L.sizes (piece * L.pieceLength + offset) (bufsSize bufs)
  have hlsum := specChunks_lens_sum L.sizes (piece * L.pieceLength + offset) (bufsSize bufs)
    (by omega)
  have hmin : min (bufsSize bufs) (L.sizes.sum - (piece * L.pieceLength + offset)) =
      L.sizes.sum - (piece * L.pieceLength + offset) := by omega
  rw [hmin] at hlsum
  obtain ⟨k1, _, _⟩ := chunkCalls_spec
    (specChunks L.sizes (piece * L.pieceLength + offset) (bufsSize bufs)) current
    hlpos (by omega)
  have hsums : ((chunkCalls (specChunks L.sizes (piece * L.pieceLength + offset)
      (bufsSize bufs)) current).map (fun c => bufsSize c.bufs)).sum =
      L.sizes.sum - (piece * L.pieceLength + offset) := by
    have hmm := congrArg (List.map (fun c : Nat × Nat × Nat => c.2.2)) k1
    rw [List.map_map] at hmm
    have hcomp : ((fun c : Nat × Nat × Nat => c.2.2) ∘
        (fun c : Call => (c.fileIndex, c.fileOffset, bufsSize c.bufs))) =
        (fun c : Call => bufsSize c.bufs) := rfl
    rw [hcomp] at hmm
    rw [hmm, hlsum]
  have hal := callsAligned_of_chunks L _ _ _ k1
    (specChunks_aligned L.sizes (piece * L.pieceLength + offset) (bufsSize bufs))
  exact ⟨_, hmain, hsums, by omega, callsAligned_indices L _ _ hal, hal⟩

/-- Witness for the amended C3 at a concrete overlong request. -/
theorem C3_overlong_request_witness :
    ((([[9,9,9]] : List Buf) ≠ []) ∧
      0 * (Layout.mk [2] 2).pieceLength + 0 < (Layout.mk [2] 2).totalSize ∧
      (Layout.mk [2] 2).totalSize < 0 * (Layout.mk [2] 2).pieceLength + 0 + bufsSize [[9,9,9]]) ∧
    (∃ calls,
      readwritev (Layout.mk [2] 2) [[9,9,9]] 0 0 echoOp =
        some ((bufsSize [[9,9,9]] : Int), ec0, calls) ∧
      (calls.map (fun c => bufsSize c.bufs)).sum =
        (Layout.mk [2] 2).totalSize - (0 * (Layout.mk [2] 2).pieceLength + 0) ∧
      (calls.map (fun c => bufsSize c.bufs)).sum < bufsSize [[9,9,9]] ∧
      (∀ c ∈ calls, c.fileIndex < (Layout.mk [2] 2).numFiles) ∧
      callsAligned (Layout.mk [2] 2) (0 * (Layout.mk [2] 2).pieceLength + 0) calls) :=
  ⟨⟨by decide, by decide, by decide⟩,
    C3_overlong_request (Layout.mk [2] 2) [[9,9,9]] 0 0 echoOp
      (fun _ _ _ => rfl) (by decide) (by decide) (by decide)⟩

/-! ### Equivalence with the zero-length files removed -/

/-- Index of a file in the layout obtained by removing the zero-length
files: the number of non-empty files strictly before it. -/
def rankNonzero (sizes : List Nat) (i : Nat) : Nat :=
  ((sizes.take i).filter (fun s => decide (0 < s))).length

theorem rankNonzero_zero (sizes : List Nat) : rankNonzero sizes 0 = 0 := rfl

theorem rankNonzero_cons_zero (rest : List Nat) (i : Nat) :
    rankNonzero (0 :: rest) (i + 1) = rankNonzero rest i := by
  simp [rankNonzero]

theorem rankNonzero_cons_pos (s : Nat) (hs : 0 < s) (rest : List Nat) (i : Nat) :
    rankNonzero (s :: rest) (i + 1) = rankNonzero rest i + 1 := by
  simp [rankNonzero, hs]

theorem sum_filter_pos (sizes : List Nat) :
    (sizes.filter (fun s => decide (0 < s))).sum = sizes.sum := by
  induction sizes with
  | nil => rfl
  | cons s rest ih =>
    by_cases hs : 0 < s
    · simp [hs, ih]
    · have : s = 0 := by omega
      simp [this, ih]

theorem specChunks_cons_zero (rest : List Nat) (pos n : Nat) :
    specChunks (0 :: rest) pos n =
      (specChunks rest pos n).map (fun c => (c.1 + 1, c.2.1, c.2.2)) := by
  by_cases hn : n = 0
  · simp [hn, specChunks_zero]
  · simp [specChunks, hn]

/-- Removing the zero-length files from a layout reindexes the canonical
chunk decomposition by `rankNonzero` and changes nothing else. -/
theorem specChunks_filter_pos (sizes : List Nat) :
    ∀ pos n, specChunks (sizes.filter (fun s => decide (0 < s))) pos n =
      (specChunks sizes pos n).map
        (fun c => (rankNonzero sizes c.1, c.2.1, c.2.2)) := by
  induction sizes with
  | nil => intro pos n; simp [specChunks]
  | cons s rest ih =>
    intro pos n
    by_cases hs : 0 < s
    · rw [List.filter_cons_of_pos (by simpa using hs)]
      by_cases hn : n = 0
      · simp [hn, specChunks_zero]
      · by_cases hsle : s ≤ pos
        · simp only [specChunks, if_neg hn, if_pos hsle, ih (pos - s) n, List.map_map]
          apply List.map_congr_left
          intro c _
          simp only [Function.comp_apply]
          rw [rankNonzero_cons_pos s hs]
        · simp only [specChunks, if_neg hn, if_neg hsle, ih 0 _, List.map_map,
            List.map_cons]
          rw [rankNonzero_zero]
          congr 1
          apply List.map_congr_left
          intro c _
          simp only [Function.comp_apply]
          rw [rankNonzero_cons_pos s hs]
    · have hs0 : s = 0 := by omega
      subst hs0
      rw [List.filter_cons_of_neg (by simp)]
      rw [ih pos n, specChunks_cons_zero, List.map_map]
      apply List.map_congr_left
      intro c _
      simp only [Function.comp_apply]
      rw [rankNonzero_cons_zero]

/-- Reindexing the file indices of a chunk list reindexes the produced
calls and changes nothing else: the buffer cuts depend only on the chunk
lengths. -/
theorem chunkCalls_reindex (g : Nat → Nat) :
    ∀ chunks cur, chunkCalls (chunks.map (fun c => (g c.1, c.2.1, c.2.2))) cur =
      (chunkCalls chunks cur).map
        (fun c => ⟨g c.fileIndex, c.fileOffset, c.bufs, c.result⟩) := by
  intro chunks
  induction chunks with
  | nil => intro cur; rfl
  | cons c cs ih =>
    intro cur
    rcases c with ⟨i, o, l⟩
    simp only [List.map_cons]
    cases hcp : copy_bufs cur l with
    | none => simp [chunkCalls, hcp]
    | some pr =>
      cases hav : advance_bufs cur l with
      | none => simp [chunkCalls, hcp, hav]
      | some cur2 =>
        rcases pr with ⟨k, tmp⟩
        simp [chunkCalls, hcp, hav, ih]

/-- Along an aligned call sequence, any call that asks for at least one
byte addresses a non-empty file. -/
theorem callsAligned_file_pos (L : Layout) :
    ∀ calls pos, callsAligned L pos calls →
      ∀ c ∈ calls, 1 ≤ bufsSize c.bufs → 0 < L.fileSize c.fileIndex := by
  intro calls
  induction calls with
  | nil => intro pos _ c hc; simp at hc
  | cons d ds ih =>
    intro pos hal c hc hlen
    obtain ⟨h1, h2, h3, h4⟩ := hal
    rcases List.mem_cons.mp hc with rfl | hm
    · omega
    · exact ih _ h4 c hm hlen

/-- Claim C9: for every layout containing zero-length files and every
valid `readwritev` request spanning them (with the same error-free,
full-echoing `file_op` behaviour on both sides), the returned byte count
and the sequence of per-file sub-requests to non-empty files are
identical to those produced by the equivalent layout with the
zero-length files removed and cumulative offsets adjusted (file indices
renumbered by `rankNonzero`): zero-length files receive no `file_op`
call and are skipped. -/
theorem C9_zero_length_files_skipped (L : Layout) (bufs : List Buf) (piece offset : Nat)
    (op : FileOp) (hop : ∀ fi fo b, op fi fo b = FileOpR.ok (bufsSize b))
    (hne : bufs ≠ []) (hpos : 0 < bufsSize bufs)
    (hfit : piece * L.pieceLength + offset + bufsSize bufs ≤ L.totalSize) :
    ∃ calls calls',
      readwritev L bufs piece offset op = some ((bufsSize bufs : Int), ec0, calls) ∧
      readwritev (Layout.mk (L.sizes.filter (fun s => decide (0 < s))) L.pieceLength)
          bufs piece offset op = some ((bufsSize bufs : Int), ec0, calls') ∧
      calls' = calls.map
        (fun c => ⟨rankNonzero L.sizes c.fileIndex, c.fileOffset, c.bufs, c.result⟩) ∧
      (∀ c ∈ calls, 0 < L.fileSize c.fileIndex) := by
  obtain ⟨current, hcp, hcsz, hcfl⟩ :=
    copy_bufs_eq bufs (bufsSize bufs) hne (Nat.le_refl _)
  have hT : piece * L.pieceLength + offset < L.totalSize := by
    rw [Layout.totalSize_def] at hfit ⊢; omega
  have hT' : piece * L.pieceLength + offset <
      (Layout.mk (L.sizes.filter (fun s => decide (0 < s))) L.pieceLength).totalSize := by
    rw [Layout.totalSize_def]
    simp only [sum_filter_pos]
    rw [Layout.totalSize_def] at hT
    exact hT
  have hmain := readwritev_echo_aux L bufs piece offset op hop current hcp hcsz hT
  have hmain' := readwritev_echo_aux
    (Layout.mk (L.sizes.filter (fun s => decide (0 < s))) L.pieceLength)
    bufs piece offset op hop current hcp hcsz hT'
  have hchunks := specChunks_filter_pos L.sizes (piece * L.pieceLength + offset)
    (bufsSize bufs)
  rw [show (Layout.mk (L.sizes.filter (fun s => decide (0 < s))) L.pieceLength).sizes =
      L.sizes.filter (fun s => decide (0 < s)) from rfl, hchunks,
    chunkCalls_reindex (rankNonzero L.sizes)] at hmain'
  refine ⟨_, _, hmain, hmain', rfl, ?_⟩
  intro c hc
  have hlpos := specChunks_lens_pos L.sizes (piece * L.pieceLength + offset) (bufsSize bufs)
  have hlsum := specChunks_lens_sum L.sizes (piece * L.pieceLength + offset) (bufsSize bufs)
    (by rw [Layout.totalSize_def] at hT; omega)
  obtain ⟨k1, _, _⟩ := chunkCalls_spec
    (specChunks L.sizes (piece * L.pieceLength + offset) (bufsSize bufs)) current
    hlpos (by rw [hcsz, hlsum]; omega)
  have hal := callsAligned_of_chunks L _ _ _ k1
    (specChunks_aligned L.sizes (piece * L.pieceLength + offset) (bufsSize bufs))
  -- from alignment, every call lies inside its file, and from the chunk
  -- shapes every call asks for at least one byte, so the file is non-empty
  have hshape : (c.fileIndex, c.fileOffset, bufsSize c.bufs) ∈
      specChunks L.sizes (piece * L.pieceLength + offset) (bufsSize bufs) := by
    rw [← k1]
    exact List.mem_map_of_mem _ hc
  have hlen : 1 ≤ bufsSize c.bufs := hlpos _ hshape
  exact callsAligned_file_pos L _ _ hal c hc hlen

/-- Witness for C9 at a concrete layout with an interior zero-length
file. -/
theorem C9_zero_length_files_skipped_witness :
    ((([[9],[8,7]] : List Buf) ≠ []) ∧ 0 < bufsSize [[9],[8,7]] ∧
      0 * (Layout.mk [3,0,4] 4).pieceLength + 2 + bufsSize [[9],[8,7]] ≤
        (Layout.mk [3,0,4] 4).totalSize) ∧
    (∃ calls calls',
      readwritev (Layout.mk [3,0,4] 4) [[9],[8,7]] 0 2 echoOp =
        some ((bufsSize [[9],[8,7]] : Int), ec0, calls) ∧
      readwritev (Layout.mk ((Layout.mk [3,0,4] 4).sizes.filter (fun s => decide (0 < s)))
          (Layout.mk [3,0,4] 4).pieceLength) [[9],[8,7]] 0 2 echoOp =
        some ((bufsSize [[9],[8,7]] : Int), ec0, calls') ∧
      calls' = calls.map
        (fun c => ⟨rankNonzero (Layout.mk [3,0,4] 4).sizes c.fileIndex,
          c.fileOffset, c.bufs, c.result⟩) ∧
      (∀ c ∈ calls, 0 < (Layout.mk [3,0,4] 4).fileSize c.fileIndex)) :=
  ⟨⟨by decide, by decide, by decide⟩,
    C9_zero_length_files_skipped (Layout.mk [3,0,4] 4) [[9],[8,7]] 0 2 echoOp
      (fun _ _ _ => rfl) (by decide) (by decide) (by decide)⟩

/-! ### Errors and short transfers under an arbitrary strategy -/

/-- Bytes transferred by one recorded call. -/
def callTransfer (c : Call) : Nat :=
  match c.result with
  | FileOpR.ok k => k
  | FileOpR.err _ => 0

theorem nextNonempty_some_facts (L : Layout) (bl : Nat) :
    ∀ fuel fi fo fi2 fo2 fbl,
      nextNonempty L bl fuel fi fo = some (fi2, fo2, fbl) →
      1 ≤ fbl ∧ fbl ≤ bl := by
  intro fuel
  induction fuel with
  | zero => intro fi fo fi2 fo2 fbl h; simp [nextNonempty] at h
  | succ fuel ih =>
    intro fi fo fi2 fo2 fbl h
    simp only [nextNonempty] at h
    by_cases hz : min bl (L.fileSize fi - fo) = 0
    · rw [if_pos hz] at h
      by_cases hend : L.numFiles ≤ fi + 1
      · rw [if_pos hend] at h; cases h
      · rw [if_neg hend] at h; exact ih _ _ _ _ _ h
    · rw [if_neg hz] at h
      obtain ⟨-, -, h3⟩ := Prod.mk.injEq .. ▸ Option.some.inj h
      refine ⟨?_, ?_⟩
      · omega
      · have := Nat.min_le_left bl (L.fileSize fi - fo)
        omega

/-- General characterization of the transfer loop under an arbitrary
strategy that never transfers more than requested: the loop always
returns, and the outcome is one of (1) a clean full-size return with
every call a positive success, (2) an abort with `-1` at a single
trailing failed call whose error becomes the carrier, or (3) a stop at a
single trailing zero-transfer call, returning the cumulative transferred
count with only the implicated file recorded in the carrier. -/
theorem rwLoop_cases (L : Layout) (op : FileOp)
    (hop : ∀ fi fo b k, op fi fo b = FileOpR.ok k → k ≤ bufsSize b) (size : Nat) :
    ∀ fuel bl current fi fo,
      bl + 1 ≤ fuel → bufsSize current = bl → bl ≤ size →
      ∃ r e calls,
        rwLoop L op size fuel bl fi fo current = some (r, e, calls) ∧
        ((r = (size : Int) ∧ e = ec0 ∧
            ∀ c ∈ calls, ∃ k, c.result = FileOpR.ok k ∧ 1 ≤ k) ∨
         (∃ pre c err2, calls = pre ++ [c] ∧ c.result = FileOpR.err err2 ∧
            e = err2 ∧ r = (-1 : Int) ∧
            ∀ c' ∈ pre, ∃ k, c'.result = FileOpR.ok k ∧ 1 ≤ k) ∨
         (∃ pre c, calls = pre ++ [c] ∧ c.result = FileOpR.ok 0 ∧
            e = { ec0 with file := (c.fileIndex : Int) } ∧
            r = ((size - bl + (calls.map callTransfer).sum : Nat) : Int) ∧
            ∀ c' ∈ pre, ∃ k, c'.result = FileOpR.ok k ∧ 1 ≤ k)) := by
  intro fuel
  induction fuel with
  | zero => intro bl current fi fo h1 _ _; omega
  | succ fuel ih =>
    intro bl current fi fo h1 hsz hble
    by_cases hbl : bl = 0
    · subst hbl
      refine ⟨(size : Int), ec0, [], by simp [rwLoop], Or.inl ⟨rfl, rfl, ?_⟩⟩
      intro c hc; simp at hc
    · have hbl1 : 1 ≤ bl := by omega
      cases hnn : nextNonempty L bl (L.numFiles + 1) fi fo with
      | none =>
        refine ⟨(size : Int), ec0, [], ?_, Or.inl ⟨rfl, rfl, ?_⟩⟩
        · simp only [rwLoop, if_neg hbl, hnn]
        · intro c hc; simp at hc
      | some trip =>
        rcases trip with ⟨fi2, fo2, fbl⟩
        obtain ⟨hfbl1, hfblbl⟩ := nextNonempty_some_facts L bl _ fi fo fi2 fo2 fbl hnn
        have hcne : current ≠ [] := ne_nil_of_bufsSize_pos (by omega)
        obtain ⟨tmp, hcp, htsz, _⟩ := copy_bufs_eq current fbl hcne (by omega)
        cases hopres : op fi2 fo2 tmp with
        | err e2 =>
          refine ⟨(-1 : Int), e2, [⟨fi2, fo2, tmp, FileOpR.err e2⟩], ?_,
            Or.inr (Or.inl ⟨[], ⟨fi2, fo2, tmp, FileOpR.err e2⟩, e2, by simp, rfl, rfl, rfl,
              ?_⟩)⟩
          · simp only [rwLoop, if_neg hbl, hnn, hcp, hopres]
          · intro c' hc'; simp at hc'
        | ok k =>
          have hk : k ≤ bufsSize current := le_trans (hop fi2 fo2 tmp k hopres) (by omega)
          obtain ⟨cur2, hav, hasz, _⟩ := advance_bufs_eq current k hcne hk
          by_cases hk0 : k = 0
          · subst hk0
            refine ⟨((size - bl : Nat) : Int), { ec0 with file := (fi2 : Int) },
              [⟨fi2, fo2, tmp, FileOpR.ok 0⟩], ?_,
              Or.inr (Or.inr ⟨[], ⟨fi2, fo2, tmp, FileOpR.ok 0⟩, by simp, rfl, rfl, ?_, ?_⟩)⟩
            · simp only [rwLoop, if_neg hbl, hnn, hcp, hopres, hav,
                if_pos (by omega : 0 < fbl)]
              rw [if_pos trivial]
            · simp [callTransfer]
            · intro c' hc'; simp at hc'
          · obtain ⟨r, e, calls, hrec, hcase⟩ := ih (bl - k) cur2 fi2 (fo2 + k)
              (by omega) (by omega) (by omega)
            refine ⟨r, e, ⟨fi2, fo2, tmp, FileOpR.ok k⟩ :: calls, ?_, ?_⟩
            · simp only [rwLoop, if_neg hbl, hnn, hcp, hopres, hav, if_neg hk0, hrec]
            · rcases hcase with ⟨hr, he, hall⟩ | ⟨pre, c, err2, hcalls, hcr, he, hr, hall⟩ |
                ⟨pre, c, hcalls, hcr, he, hr, hall⟩
              · refine Or.inl ⟨hr, he, ?_⟩
                intro c hc
                rcases List.mem_cons.mp hc with rfl | hm
                · exact ⟨k, rfl, by omega⟩
                · exact hall c hm
              · refine Or.inr (Or.inl ⟨⟨fi2, fo2, tmp, FileOpR.ok k⟩ :: pre, c, err2,
                  by rw [hcalls]; rfl, hcr, he, hr, ?_⟩)
                intro c' hc'
                rcases List.mem_cons.mp hc' with rfl | hm
                · exact ⟨k, rfl, by omega⟩
                · exact hall c' hm
              · refine Or.inr (Or.inr ⟨⟨fi2, fo2, tmp, FileOpR.ok k⟩ :: pre, c,
                  by rw [hcalls]; rfl, hcr, he, ?_, ?_⟩)
                · rw [hr]
                  have harith : size - (bl - k) + (calls.map callTransfer).sum =
                      size - bl + ((⟨fi2, fo2, tmp, FileOpR.ok k⟩ :: calls).map
                        callTransfer).sum := by
                    simp only [List.map_cons, List.sum_cons, callTransfer]
                    omega
                  rw [harith]
                · intro c' hc'
                  rcases List.mem_cons.mp hc' with rfl | hm
                  · exact ⟨k, rfl, by omega⟩
                  · exact hall c' hm

/-- Claim C4: `readwritev` returns `-1` if and only if some `file_op`
call reported an error, aborting immediately at the first such error
with the carrier set to the error written by the failing strategy call
(which, per the collaborator contract, identifies the failing file and
operation); whereas when a `file_op` instead returns 0 transferred bytes
while bytes were still requested from that file, `readwritev` sets the
implicated file index in the error carrier without setting a hard error
code and returns the non-negative cumulative byte count transferred
before that call. -/
theorem C4_error_abort_and_short_transfer (L : Layout) (bufs : List Buf)
    (piece offset : Nat) (op : FileOp)
    (hop : ∀ fi fo b k, op fi fo b = FileOpR.ok k → k ≤ bufsSize b)
    (hne : bufs ≠ []) :
    ∃ r e calls,
      readwritev L bufs piece offset op = some (r, e, calls) ∧
      (r = -1 ↔ ∃ c ∈ calls, ∃ e2, c.result = FileOpR.err e2) ∧
      (∀ c ∈ calls, ∀ e2, c.result = FileOpR.err e2 →
        calls.getLast? = some c ∧ e = e2 ∧ r = -1) ∧
      (∀ c ∈ calls, c.result = FileOpR.ok 0 →
        calls.getLast? = some c ∧ e.ec = none ∧ e.file = (c.fileIndex : Int) ∧
        r = ((calls.map callTransfer).sum : Int) ∧ 0 ≤ r) := by
  obtain ⟨current, hcp, hcsz, _⟩ := copy_bufs_eq bufs (bufsSize bufs) hne (Nat.le_refl _)
  obtain ⟨r, e, calls, hloop, hcase⟩ := rwLoop_cases L op hop (bufsSize bufs)
    (bufsSize bufs + 1) (bufsSize bufs) current
    (L.fileIndexAtOffset (piece * L.pieceLength + offset))
    (piece * L.pieceLength + offset -
      L.fileOffset (L.fileIndexAtOffset (piece * L.pieceLength + offset)))
    (Nat.le_refl _) hcsz (Nat.le_refl _)
  have hread : readwritev L bufs piece offset op = some (r, e, calls) := by
    simp only [readwritev, hcp]
    exact hloop
  rcases hcase with ⟨hr, he, hall⟩ | ⟨pre, c, err2, hcalls, hcr, he, hr, hall⟩ |
    ⟨pre, c, hcalls, hcr, he, hr, hall⟩
  · refine ⟨r, e, calls, hread, ?_, ?_, ?_⟩
    · constructor
      · intro hr1
        rw [hr] at hr1
        exfalso
        omega
      · rintro ⟨c, hc, e2, hce⟩
        obtain ⟨k, hk, _⟩ := hall c hc
        rw [hk] at hce
        cases hce
    · intro c hc e2 hce
      obtain ⟨k, hk, _⟩ := hall c hc
      rw [hk] at hce
      cases hce
    · intro c hc hc0
      obtain ⟨k, hk, hk1⟩ := hall c hc
      rw [hk] at hc0
      have := FileOpR.ok.inj hc0
      omega
  · refine ⟨r, e, calls, hread, ?_, ?_, ?_⟩
    · constructor
      · intro _
        exact ⟨c, by rw [hcalls]; simp, err2, hcr⟩
      · intro _
        exact hr
    · intro c' hc' e2' hce'
      rw [hcalls] at hc' ⊢
      rcases List.mem_append.mp hc' with hm | hm
      · obtain ⟨k, hk, _⟩ := hall c' hm
        rw [hk] at hce'
        cases hce'
      · have hcc : c' = c := by simpa using hm
        subst hcc
        refine ⟨?_, ?_, hr⟩
        · rw [List.getLast?_concat]
        · rw [hcr] at hce'
          rw [he]
          exact FileOpR.err.inj hce'
    · intro c' hc' hc0'
      rw [hcalls] at hc'
      rcases List.mem_append.mp hc' with hm | hm
      · obtain ⟨k, hk, hk1⟩ := hall c' hm
        rw [hk] at hc0'
        have := FileOpR.ok.inj hc0'
        omega
      · have hcc : c' = c := by simpa using hm
        subst hcc
        rw [hcr] at hc0'
        cases hc0'
  · refine ⟨r, e, calls, hread, ?_, ?_, ?_⟩
    · constructor
      · intro hr1
        rw [hr] at hr1
        exfalso
        omega
      · rintro ⟨c', hc', e2, hce⟩
        rw [hcalls] at hc'
        rcases List.mem_append.mp hc' with hm | hm
        · obtain ⟨k, hk, _⟩ := hall c' hm
          rw [hk] at hce
          cases hce
        · have hcc : c' = c := by simpa using hm
          subst hcc
          rw [hcr] at hce
          cases hce
    · intro c' hc' e2 hce
      rw [hcalls] at hc'
      rcases List.mem_append.mp hc' with hm | hm
      · obtain ⟨k, hk, _⟩ := hall c' hm
        rw [hk] at hce
        cases hce
      · have hcc : c' = c := by simpa using hm
        subst hcc
        rw [hcr] at hce
        cases hce
    · intro c' hc' hc0'
      rw [hcalls] at hc'
      rcases List.mem_append.mp hc' with hm | hm
      · obtain ⟨k, hk, hk1⟩ := hall c' hm
        rw [hk] at hc0'
        have := FileOpR.ok.inj hc0'
        omega
      · have hcc : c' = c := by simpa using hm
        subst hcc
        refine ⟨?_, ?_, ?_, ?_, ?_⟩
        · rw [hcalls, List.getLast?_concat]
        · rw [he]
          rfl
        · rw [he]
        · rw [hr]
          congr 1
          omega
        · rw [hr]
          exact Int.natCast_nonneg _

/-- Witness for C4 under the full-echo strategy (no error, no short
transfer: the error-abort and short-transfer conjuncts hold vacuously,
and the return value is not `-1`). -/
theorem C4_error_abort_and_short_transfer_witness :
    ((∀ fi fo b k, echoOp fi fo b = FileOpR.ok k → k ≤ bufsSize b) ∧
      (([[5]] : List Buf) ≠ [])) ∧
    (∃ r e calls,
      readwritev (Layout.mk [1] 1) [[5]] 0 0 echoOp = some (r, e, calls) ∧
      (r = -1 ↔ ∃ c ∈ calls, ∃ e2, c.result = FileOpR.err e2) ∧
      (∀ c ∈ calls, ∀ e2, c.result = FileOpR.err e2 →
        calls.getLast? = some c ∧ e = e2 ∧ r = -1) ∧
      (∀ c ∈ calls, c.result = FileOpR.ok 0 →
        calls.getLast? = some c ∧ e.ec = none ∧ e.file = (c.fileIndex : Int) ∧
        r = ((calls.map callTransfer).sum : Int) ∧ 0 ≤ r)) :=
  ⟨⟨fun _ _ b k h => le_of_eq (FileOpR.ok.inj h).symm, by decide⟩,
    C4_error_abort_and_short_transfer (Layout.mk [1] 1) [[5]] 0 0 echoOp
      (fun _ _ b k h => le_of_eq (FileOpR.ok.inj h).symm) (by decide)⟩

/-! ### The storage relocation engine -/

/-- System error code for "no such file or directory" (`ENOENT`). -/
def enoent : Nat := 2

/-- System error code for "permission denied" (`EACCES`). -/
def eacces : Nat := 13

/-- System error code for "invalid argument" (`EINVAL`). -/
def einval : Nat := 22

/-- System error code for "cross-device link" (`EXDEV`), the typical
cross-volume move failure. -/
def exdev : Nat := 18

/-- One file of the layout as seen by the relocation engine: its path
relative to the save path, and whether the path is absolute (absolute
files are never relocated). -/
structure MoveFile where
  path : String
  absolute : Bool
deriving DecidableEq

/-- Modelled from the spec: the filesystem primitives consumed by the
relocation engine (stat-path, create-directory-tree, rename-path,
copy-path, remove-path and the partial-piece store move), given as pure
outcome oracles; `none` is success and `some c` the system error code.
`complete` resolves a path to its canonical absolute form. -/
structure FSOracle where
  complete : String → String
  stat : String → Option Nat
  mkdirs : String → Option Nat
  moveRes : String → String → Option Nat
  copyRes : String → String → Option Nat
  removeRes : String → Option Nat
  partMove : String → Option Nat

/-- `exists(p)` as used by the source: a successful stat. -/
def FSOracle.pathExists (o : FSOracle) (p : String) : Bool := (o.stat p).isNone

/-- One filesystem primitive invocation as observed from outside,
with the outcome the oracle reported. -/
inductive FSEvent
  | statE (path : String) (res : Option Nat)
  | mkdirE (path : String) (res : Option Nat)
  | moveE (src dst : String) (res : Option Nat)
  | copyE (src dst : String) (res : Option Nat)
  | removeE (path : String) (res : Option Nat)
  | partE (path : String) (res : Option Nat)
deriving DecidableEq

/-- Whether an event mutates the filesystem (everything except a stat
probe). -/
def FSEvent.isMutation : FSEvent → Bool
  | FSEvent.statE _ _ => false
  | _ => true

/-- Modelled from the spec: the path-join primitive. -/
def combine_path (a b : String) : String := a ++ "/" ++ b

/-- Modelled from the spec: whether a path has a parent directory
component. -/
def has_parent_path (p : String) : Bool := decide ('/' ∈ p.toList)

/-- Characters of a path before its last separator. -/
def parentChars : List Char → List Char
  | [] => []
  | c :: rest => if ('/' ∈ rest) then c :: parentChars rest else []

/-- Modelled from the spec: the path-parent-of primitive (everything
before the last separator; the empty string when there is none). -/
def parent_path (p : String) : String := (parentChars p.toList).asString

/-- Relocation policy flags. -/
inductive MoveFlags
  | always_replace
  | fail_if_exist
  | dont_replace
deriving DecidableEq

/-- Relocation status (`status_t`). -/
inductive status_t
  | no_error
  | fatal_disk_error
  | need_full_check
  | file_exist
deriving DecidableEq

/-- Result of one `move_storage` call: the returned status and path, the
final error carrier, and the trace of filesystem primitive calls the
engine made, in order. -/
structure MoveResult where
  status : status_t
  path : String
  ec : StorageError
  events : List FSEvent
deriving DecidableEq

/-- The fail-if-exists pre-check scan (source lines 207–221): stat every
non-absolute file under the resolved destination, in order, stopping at
the first whose outcome is not `ENOENT`.  Returns the probe events and
the hit (file index and its stat outcome), if any. -/
def precheckScan (o : FSOracle) (newSave : String) :
    List MoveFile → Nat → List FSEvent × Option (Nat × Option Nat)
  | [], _ => ([], none)
  | f :: rest, i =>
    if f.absolute then precheckScan o newSave rest (i + 1)
    else
      let p := combine_path newSave f.path
      let r := o.stat p
      if r ≠ some enoent then ([FSEvent.statE p r], some (i, r))
      else
        let tail := precheckScan o newSave rest (i + 1)
        (FSEvent.statE p r :: tail.1, tail.2)

/-- One per-file move attempt (source lines 273–289): try the rename; a
missing source is a no-op success; an error other than `EINVAL` and
`EACCES` falls back to a full copy, marking the file as copied when the
copy succeeds.  Returns the events, the surviving error and the copied
flag. -/
def moveOne (o : FSOracle) (oldp newp : String) : List FSEvent × Option Nat × Bool :=
  match o.moveRes oldp newp with
  | none => ([FSEvent.moveE oldp newp none], none, false)
  | some c =>
    if c = enoent then ([FSEvent.moveE oldp newp (some c)], none, false)
    else if c ≠ einval ∧ c ≠ eacces then
      let e2 := o.copyRes oldp newp
      ([FSEvent.moveE oldp newp (some c), FSEvent.copyE oldp newp e2], e2, e2.isNone)
    else ([FSEvent.moveE oldp newp (some c)], some c, false)

/-- State at the end of the per-file move loop: the pending status, the
copied-files set, the surviving error with the index the loop broke at
(`break_idx` is the file count when the loop completed), and the loop's
events. -/
structure LoopState where
  ret : status_t
  copied : List Bool
  err : Option Nat
  break_idx : Nat
  events : List FSEvent
deriving DecidableEq

/-- The per-file move loop of `move_storage` (source lines 256–298). -/
def moveLoopGo (o : FSOracle) (flags : MoveFlags) (save newSave : String) :
    List MoveFile → Nat → status_t → List Bool → LoopState
  | [], i, ret, copied => ⟨ret, copied, none, i, []⟩
  | f :: rest, i, ret, copied =>
    if f.absolute then moveLoopGo o flags save newSave rest (i + 1) ret copied
    else
      let oldp := combine_path save f.path
      let newp := combine_path newSave f.path
      let probe : List FSEvent :=
        if flags = MoveFlags.dont_replace then [FSEvent.statE newp (o.stat newp)] else []
      if flags = MoveFlags.dont_replace ∧ o.pathExists newp then
        let st := moveLoopGo o flags save newSave rest (i + 1)
          (if ret = status_t.no_error then status_t.need_full_check else ret) copied
        { st with events := probe ++ st.events }
      else
        let r := moveOne o oldp newp
        match r.2.1 with
        | some c => ⟨ret, copied.set i r.2.2, some c, i, probe ++ r.1⟩
        | none =>
          let st := moveLoopGo o flags save newSave rest (i + 1) ret (copied.set i r.2.2)
          { st with events := probe ++ r.1 ++ st.events }

/-- The rollback walk (source lines 313–329): for the already-processed
files below `upto` in reverse order, skipping absolute-path files and
files that were copied rather than moved, move each one back from the
destination to its source location; outcomes are ignored. -/
def rollbackEvents (o : FSOracle) (save newSave : String) (files : List MoveFile)
    (upto : Nat) (copied : List Bool) : List FSEvent :=
  (List.range upto).reverse.filterMap fun j =>
    let f := files.getD j ⟨"", false⟩
    if f.absolute then none
    else if copied.getD j false then none
    else
      let oldp := combine_path save f.path
      let newp := combine_path newSave f.path
      some (FSEvent.moveE newp oldp (o.moveRes newp oldp))

/-- The commit-cleanup removals (source lines 341–360): walking the
files from index `i`, delete the source copy of every non-absolute file
that was copied rather than moved. -/
def commitRemoveEvents (o : FSOracle) (save : String) :
    List MoveFile → List Bool → Nat → List FSEvent
  | [], _, _ => []
  | f :: rest, copied, i =>
    (if ¬ f.absolute ∧ copied.getD i false then
      [FSEvent.removeE (combine_path save f.path)
        (o.removeRes (combine_path save f.path))]
    else []) ++ commitRemoveEvents o save rest copied (i + 1)

/-- Byte-wise lexicographic comparison of paths, the ordering of the
source's `std::set<std::string>` of parent directories. -/
def charsLt : List Char → List Char → Bool
  | [], [] => false
  | [], _ :: _ => true
  | _ :: _, [] => false
  | a :: as, b :: bs =>
    if a.toNat < b.toNat then true
    else if b.toNat < a.toNat then false
    else charsLt as bs

/-- Ordered-set insertion (deduplicating, sorted by `charsLt`). -/
def insertSorted (s : String) : List String → List String
  | [] => [s]
  | t :: rest =>
    if s = t then t :: rest
    else if charsLt s.toList t.toList then s :: t :: rest
    else t :: insertSorted s rest

/-- The set of parent directories of the non-absolute files, in the
source's `std::set` iteration order. -/
def collectSubdirs (files : List MoveFile) : List String :=
  files.foldl
    (fun acc f =>
      if f.absolute then acc
      else if has_parent_path f.path then insertSorted (parent_path f.path) acc
      else acc) []

/-- The subdirectory pruning loop (source lines 367–371): repeatedly
remove the directory and walk up to its parent, stopping at the source
root or at the first removal error.  The source loops until one of those
happens; the model bounds the iteration by the path length, which
suffices because each parent step strictly shortens a non-empty path. -/
def pruneGo (o : FSOracle) (save : String) : Nat → String → List FSEvent
  | 0, _ => []
  | fuel + 1, subdir =>
    if subdir = save then []
    else
      let r := o.removeRes subdir
      FSEvent.removeE subdir r ::
        (if r.isNone then pruneGo o save fuel (parent_path subdir) else [])

def pruneEvents (o : FSOracle) (save s : String) : List FSEvent :=
  let subdir := combine_path save s
  pruneGo o save (subdir.length + 1) subdir

def pruneAllEvents (o : FSOracle) (save : String) (subs : List String) : List FSEvent :=
  (subs.map (pruneEvents o save)).flatten

/-- The state of the per-file move loop run from the start, as
`move_storage` runs it. -/
def loopStateOf (o : FSOracle) (flags : MoveFlags) (save newSave : String)
    (files : List MoveFile) : LoopState :=
  moveLoopGo o flags save newSave files 0 status_t.no_error
    (List.replicate files.length false)

/-- The tail of `move_storage` after the destination directory is known
to exist (source lines 250–374): the per-file move loop, the
partial-piece store move, rollback on failure, and commit cleanup on
success.  `preEvents` are the events of the earlier phases. -/
def moveMain (o : FSOracle) (files : List MoveFile) (save newSave : String)
    (hasPartfile : Bool) (flags : MoveFlags) (preEvents : List FSEvent) : MoveResult :=
  let st := loopStateOf o flags save newSave files
  match st.err with
  | some c =>
    ⟨status_t.fatal_disk_error, save,
      ⟨some c, (st.break_idx : Int), OpTag.rename⟩,
      preEvents ++ st.events ++
        rollbackEvents o save newSave files st.break_idx st.copied⟩
  | none =>
    if hasPartfile then
      match o.partMove newSave with
      | some c =>
        ⟨status_t.fatal_disk_error, save, ⟨some c, -1, OpTag.partfile_move⟩,
          preEvents ++ st.events ++ [FSEvent.partE newSave (some c)] ++
            rollbackEvents o save newSave files files.length st.copied⟩
      | none =>
        ⟨st.ret, newSave, ec0,
          preEvents ++ st.events ++ [FSEvent.partE newSave none] ++
            commitRemoveEvents o save files st.copied 0 ++
            pruneAllEvents o save (collectSubdirs files)⟩
    else
      ⟨st.ret, newSave, ec0,
        preEvents ++ st.events ++ commitRemoveEvents o save files st.copied 0 ++
          pruneAllEvents o save (collectSubdirs files)⟩

/-- `move_storage(f, save_path, destination_save_path, pf, flags, ec)`
(source lines 190–375): resolve the destination, run the fail-if-exists
pre-check, ensure the destination directory exists, then relocate. -/
def move_storage (o : FSOracle) (files : List MoveFile)
    (save_path destination_save_path : String) (hasPartfile : Bool)
    (flags : MoveFlags) : MoveResult :=
  let new_save_path := o.complete destination_save_path
  let rootRes := o.stat new_save_path
  let preEvents : List FSEvent :=
    if flags = MoveFlags.fail_if_exist then
      FSEvent.statE new_save_path rootRes ::
        (if rootRes ≠ some enoent then (precheckScan o new_save_path files 0).1 else [])
    else []
  let preHit : Option (Nat × Option Nat) :=
    if flags = MoveFlags.fail_if_exist ∧ rootRes ≠ some enoent then
      (precheckScan o new_save_path files 0).2
    else none
  match preHit with
  | some pr =>
    ⟨status_t.file_exist, save_path, ⟨pr.2, (pr.1 : Int), OpTag.stat⟩, preEvents⟩
  | none =>
    match o.stat new_save_path with
    | some c =>
      if c = enoent then
        match o.mkdirs new_save_path with
        | some cm =>
          ⟨status_t.fatal_disk_error, save_path, ⟨some cm, -1, OpTag.mkdir⟩,
            preEvents ++ [FSEvent.statE new_save_path (some c),
              FSEvent.mkdirE new_save_path (some cm)]⟩
        | none =>
          moveMain o files save_path new_save_path hasPartfile flags
            (preEvents ++ [FSEvent.statE new_save_path (some c),
              FSEvent.mkdirE new_save_path none])
      else
        ⟨status_t.fatal_disk_error, save_path, ⟨some c, -1, OpTag.stat⟩,
          preEvents ++ [FSEvent.statE new_save_path (some c)]⟩
    | none =>
      moveMain o files save_path new_save_path hasPartfile flags
        (preEvents ++ [FSEvent.statE new_save_path none])

/-! ### Pre-check lemmas and reaching the move loop -/

/-- The pre-check scan only ever probes: all its events are stats. -/
theorem precheckScan_stat_only (o : FSOracle) (newSave : String) :
    ∀ fl i, ∀ ev ∈ (precheckScan o newSave fl i).1, ev.isMutation = false := by
  intro fl
  induction fl with
  | nil => intro i ev hev; simp [precheckScan] at hev
  | cons f rest ih =>
    intro i ev hev
    by_cases habs : f.absolute
    · rw [precheckScan, if_pos habs] at hev
      exact ih (i + 1) ev hev
    · rw [precheckScan, if_neg habs] at hev
      by_cases hr : o.stat (combine_path newSave f.path) ≠ some enoent
      · rw [if_pos hr] at hev
        simp at hev
        subst hev
        rfl
      · rw [if_neg hr] at hev
        rcases List.mem_cons.mp hev with rfl | hm
        · rfl
        · exact ih (i + 1) ev hm

/-- If some non-absolute file's destination probe does not report
`ENOENT`, the pre-check scan reports a hit. -/
theorem precheckScan_hit (o : FSOracle) (newSave : String) :
    ∀ fl i,
      (∃ jj, jj < fl.length ∧ ¬ (fl.getD jj ⟨"", false⟩).absolute ∧
        o.stat (combine_path newSave (fl.getD jj ⟨"", false⟩).path) ≠ some enoent) →
      ∃ pr, (precheckScan o newSave fl i).2 = some pr := by
  intro fl
  induction fl with
  | nil =>
    intro i h
    obtain ⟨jj, hjj, _, _⟩ := h
    simp at hjj
  | cons f rest ih =>
    intro i h
    by_cases habs : f.absolute
    · rw [precheckScan, if_pos habs]
      apply ih (i + 1)
      obtain ⟨jj, hjj, habs2, hstat⟩ := h
      cases jj with
      | zero => simp only [List.getD_cons_zero] at habs2; simp [habs] at habs2
      | succ jj2 =>
        exact ⟨jj2, by simp at hjj; omega, by simpa using habs2, by simpa using hstat⟩
    · rw [precheckScan, if_neg habs]
      by_cases hr : o.stat (combine_path newSave f.path) ≠ some enoent
      · rw [if_pos hr]
        exact ⟨(i, o.stat (combine_path newSave f.path)), rfl⟩
      · rw [if_neg hr]
        apply ih (i + 1)
        obtain ⟨jj, hjj, habs2, hstat⟩ := h
        cases jj with
        | zero =>
          simp only [List.getD_cons_zero] at hstat
          exact absurd hstat hr
        | succ jj2 =>
          exact ⟨jj2, by simp at hjj; omega, by simpa using habs2, by simpa using hstat⟩

/-- The pre-check scan stops at the first non-absolute file whose probe
does not report `ENOENT`, and reports its index and stat outcome. -/
theorem precheckScan_first_hit (o : FSOracle) (newSave : String) :
    ∀ fl i j, j < fl.length →
      ¬ (fl.getD j ⟨"", false⟩).absolute →
      (∀ l, l < j → ¬ (fl.getD l ⟨"", false⟩).absolute →
        o.stat (combine_path newSave (fl.getD l ⟨"", false⟩).path) = some enoent) →
      o.stat (combine_path newSave (fl.getD j ⟨"", false⟩).path) ≠ some enoent →
      (precheckScan o newSave fl i).2 =
        some (i + j, o.stat (combine_path newSave (fl.getD j ⟨"", false⟩).path)) := by
  intro fl
  induction fl with
  | nil => intro i j hj; simp at hj
  | cons f rest ih =>
    intro i j hj habs hbefore hstat
    by_cases hfabs : f.absolute
    · cases j with
      | zero => simp only [List.getD_cons_zero] at habs; simp [hfabs] at habs
      | succ j2 =>
        rw [precheckScan, if_pos hfabs]
        have := ih (i + 1) j2 (by simp only [List.length_cons] at hj; omega)
          (by simpa using habs)
          (fun l hl hla => by
            have := hbefore (l + 1) (by omega) (by simpa using hla)
            simpa using this)
          (by simpa using hstat)
        rw [this, List.getD_cons_succ]
        simp only [Option.some.injEq, Prod.mk.injEq]
        exact ⟨by omega, trivial⟩
    · cases j with
      | zero =>
        simp only [List.getD_cons_zero] at hstat
        rw [precheckScan, if_neg hfabs, if_pos hstat]
        simp
      | succ j2 =>
        have h0 : o.stat (combine_path newSave f.path) = some enoent := by
          have := hbefore 0 (by omega) (by simpa using hfabs)
          simpa using this
        rw [precheckScan, if_neg hfabs, if_neg (by simp [h0])]
        have := ih (i + 1) j2 (by simp only [List.length_cons] at hj; omega)
          (by simpa using habs)
          (fun l hl hla => by
            have := hbefore (l + 1) (by omega) (by simpa using hla)
            simpa using this)
          (by simpa using hstat)
        rw [this, List.getD_cons_succ]
        simp only [Option.some.injEq, Prod.mk.injEq]
        exact ⟨by omega, trivial⟩

/-- When neither the pre-check fires nor the destination directory is
missing-and-uncreatable, `move_storage` proceeds to the move loop with
some prefix of probe events. -/
theorem move_storage_reach (o : FSOracle) (files : List MoveFile)
    (save dest : String) (hasPartfile : Bool) (flags : MoveFlags)
    (hflags : flags ≠ MoveFlags.fail_if_exist)
    (hroot : o.stat (o.complete dest) = none ∨
      (o.stat (o.complete dest) = some enoent ∧ o.mkdirs (o.complete dest) = none)) :
    ∃ pre, move_storage o files save dest hasPartfile flags =
      moveMain o files save (o.complete dest) hasPartfile flags pre ∧
      ∀ ev ∈ pre, ∀ src dst r, ev ≠ FSEvent.copyE src dst r ∧ ev ≠ FSEvent.removeE src r ∧
        ev ≠ FSEvent.moveE src dst r ∧ ev ≠ FSEvent.partE src r := by
  have hpree : (if flags = MoveFlags.fail_if_exist then
      FSEvent.statE (o.complete dest) (o.stat (o.complete dest)) ::
        (if (o.stat (o.complete dest)) ≠ some enoent then
          (precheckScan o (o.complete dest) files 0).1 else []) else []) = [] :=
    if_neg hflags
  have hhit : (if flags = MoveFlags.fail_if_exist ∧
      (o.stat (o.complete dest)) ≠ some enoent then
      (precheckScan o (o.complete dest) files 0).2 else none) = none :=
    if_neg (fun hand => hflags hand.1)
  rcases hroot with h | ⟨h1, h2⟩
  · refine ⟨[FSEvent.statE (o.complete dest) none], ?_, ?_⟩
    · simp [move_storage, hflags, h]
    · intro ev hev src dst r
      simp at hev
      subst hev
      exact ⟨by simp, by simp, by simp, by simp⟩
  · refine ⟨[FSEvent.statE (o.complete dest) (some enoent),
      FSEvent.mkdirE (o.complete dest) none], ?_, ?_⟩
    · simp [move_storage, hflags, h1, h2]
    · intro ev hev src dst r
      rcases List.mem_cons.mp hev with rfl | hm
      · exact ⟨by simp, by simp, by simp, by simp⟩
      · simp at hm
        subst hm
        exact ⟨by simp, by simp, by simp, by simp⟩

/-- Claim C6: under the fail-if-exists policy, if the destination root
exists and the existence probe of some non-absolute-path file's
destination reports it present, `move_storage` returns the
destination-exists status together with the original save path, having
performed no mutation at all: no directory is created, and no file is
moved, copied, or removed (all events are stat probes). -/
theorem C6_fail_if_exist_no_mutation (o : FSOracle) (files : List MoveFile)
    (save dest : String) (hasPartfile : Bool)
    (hroot : o.stat (o.complete dest) = none)
    (hj : ∃ j, j < files.length ∧ ¬ (files.getD j ⟨"", false⟩).absolute ∧
      o.stat (combine_path (o.complete dest) (files.getD j ⟨"", false⟩).path) = none) :
    (move_storage o files save dest hasPartfile MoveFlags.fail_if_exist).status =
      status_t.file_exist ∧
    (move_storage o files save dest hasPartfile MoveFlags.fail_if_exist).path = save ∧
    ∀ ev ∈ (move_storage o files save dest hasPartfile MoveFlags.fail_if_exist).events,
      ev.isMutation = false := by
  obtain ⟨j, hjlen, hjabs, hjstat⟩ := hj
  have hqual : ∃ jj, jj < files.length ∧ ¬ (files.getD jj ⟨"", false⟩).absolute ∧
      o.stat (combine_path (o.complete dest) (files.getD jj ⟨"", false⟩).path) ≠
        some enoent :=
    ⟨j, hjlen, hjabs, by rw [hjstat]; simp⟩
  obtain ⟨pr, hpr⟩ := precheckScan_hit o (o.complete dest) files 0 hqual
  have hrootne : (o.stat (o.complete dest) : Option Nat) ≠ some enoent := by
    rw [hroot]; simp
  have hunfold : move_storage o files save dest hasPartfile MoveFlags.fail_if_exist =
      ⟨status_t.file_exist, save, ⟨pr.2, (pr.1 : Int), OpTag.stat⟩,
        FSEvent.statE (o.complete dest) (o.stat (o.complete dest)) ::
          (precheckScan o (o.complete dest) files 0).1⟩ := by
    simp [move_storage, hrootne, hpr]
  rw [hunfold]
  refine ⟨rfl, rfl, ?_⟩
  intro ev hev
  rcases List.mem_cons.mp hev with rfl | hm
  · rfl
  · exact precheckScan_stat_only o (o.complete dest) files 0 ev hm

/-- Oracle for the C6 witness: every stat succeeds (everything exists);
all mutating primitives would succeed but are never called. -/
def oracleC6 : FSOracle :=
  ⟨fun p => p, fun _ => none, fun _ => none, fun _ _ => none, fun _ _ => none,
    fun _ => none, fun _ => none⟩

/-- Witness for C6 at a concrete one-file layout whose destination file
exists. -/
theorem C6_fail_if_exist_no_mutation_witness :
    (oracleC6.stat (oracleC6.complete "d") = none ∧
      (∃ j, j < ([⟨"a", false⟩] : List MoveFile).length ∧
        ¬ (([⟨"a", false⟩] : List MoveFile).getD j ⟨"", false⟩).absolute ∧
        oracleC6.stat (combine_path (oracleC6.complete "d")
          (([⟨"a", false⟩] : List MoveFile).getD j ⟨"", false⟩).path) = none)) ∧
    ((move_storage oracleC6 [⟨"a", false⟩] "s" "d" false MoveFlags.fail_if_exist).status =
      status_t.file_exist ∧
    (move_storage oracleC6 [⟨"a", false⟩] "s" "d" false MoveFlags.fail_if_exist).path = "s" ∧
    ∀ ev ∈ (move_storage oracleC6 [⟨"a", false⟩] "s" "d" false
        MoveFlags.fail_if_exist).events,
      ev.isMutation = false) :=
  ⟨⟨rfl, ⟨0, by decide, by decide, rfl⟩⟩,
    C6_fail_if_exist_no_mutation oracleC6 [⟨"a", false⟩] "s" "d" false rfl
      ⟨0, by decide, by decide, rfl⟩⟩

/-- Oracle for the C10 counterexample: every stat reports
permission-denied; every mutating primitive would succeed. -/
def oracleC10 : FSOracle :=
  ⟨fun p => p, fun _ => some eacces, fun _ => none, fun _ _ => none, fun _ _ => none,
    fun _ => none, fun _ => none⟩

/-- Counterexample to claim C10 as stated: with an empty layout under
the fail-if-exists policy, a permission error while probing the
destination root yields the fatal-disk-error status (from the later
directory-creation stat), not the destination-exists status the claim
asserts. -/
theorem C10_counterexample :
    move_storage oracleC10 [] "s" "d" false MoveFlags.fail_if_exist =
      ⟨status_t.fatal_disk_error, "s", ⟨some eacces, -1, OpTag.stat⟩,
        [FSEvent.statE "d" (some eacces), FSEvent.statE "d" (some eacces)]⟩ ∧
    status_t.fatal_disk_error ≠ status_t.file_exist :=
  ⟨by decide, by decide⟩

/-- Claim C10, amended: in the fail-if-exists pre-check, once the
destination-root probe reports anything other than ENOENT, any per-file
stat outcome other than ENOENT — success or a genuine failure such as
permission-denied — is treated as "the path exists": the first
non-absolute file whose probe reports non-ENOENT yields the
destination-exists status with the original save path and the carrier
holding that file's stat outcome, index and the stat operation tag (not
fatal-disk-error).  A non-ENOENT root probe alone, with every file probe
reporting ENOENT, instead falls through and yields fatal-disk-error from
the later root stat (see the counterexample). -/
theorem C10_nonenoent_file_probe_is_exists (o : FSOracle) (files : List MoveFile)
    (save dest : String) (hasPartfile : Bool) (j : Nat)
    (hrootne : o.stat (o.complete dest) ≠ some enoent)
    (hjlen : j < files.length)
    (hjabs : ¬ (files.getD j ⟨"", false⟩).absolute)
    (hbefore : ∀ l, l < j → ¬ (files.getD l ⟨"", false⟩).absolute →
      o.stat (combine_path (o.complete dest) (files.getD l ⟨"", false⟩).path) =
        some enoent)
    (hjstat : o.stat (combine_path (o.complete dest) (files.getD j ⟨"", false⟩).path) ≠
      some enoent) :
    move_storage o files save dest hasPartfile MoveFlags.fail_if_exist =
      ⟨status_t.file_exist, save,
        ⟨o.stat (combine_path (o.complete dest) (files.getD j ⟨"", false⟩).path),
          (j : Int), OpTag.stat⟩,
        FSEvent.statE (o.complete dest) (o.stat (o.complete dest)) ::
          (precheckScan o (o.complete dest) files 0).1⟩ ∧
    ∀ ev ∈ (move_storage o files save dest hasPartfile MoveFlags.fail_if_exist).events,
      ev.isMutation = false := by
  have hpr := precheckScan_first_hit o (o.complete dest) files 0 j hjlen hjabs
    hbefore hjstat
  rw [Nat.zero_add] at hpr
  have hunfold : move_storage o files save dest hasPartfile MoveFlags.fail_if_exist =
      ⟨status_t.file_exist, save,
        ⟨o.stat (combine_path (o.complete dest) (files.getD j ⟨"", false⟩).path),
          (j : Int), OpTag.stat⟩,
        FSEvent.statE (o.complete dest) (o.stat (o.complete dest)) ::
          (precheckScan o (o.complete dest) files 0).1⟩ := by
    simp [move_storage, hrootne, hpr]
  refine ⟨hunfold, ?_⟩
  rw [hunfold]
  intro ev hev
  rcases List.mem_cons.mp hev with rfl | hm
  · rfl
  · exact precheckScan_stat_only o (o.complete dest) files 0 ev hm

/-- Oracle for the C10 amended witness: the destination root exists, and
the probe of the only file's destination fails with permission-denied. -/
def oracleC10b : FSOracle :=
  ⟨fun p => p, (fun p => if p = "d/a" then some eacces else none), fun _ => none,
    fun _ _ => none, fun _ _ => none, fun _ => none, fun _ => none⟩

/-- Witness for the amended C10: a permission-denied probe on a
destination file is treated as "exists". -/
theorem C10_nonenoent_file_probe_is_exists_witness :
    (oracleC10b.stat (oracleC10b.complete "d") ≠ some enoent ∧
      0 < ([⟨"a", false⟩] : List MoveFile).length ∧
      ¬ (([⟨"a", false⟩] : List MoveFile).getD 0 ⟨"", false⟩).absolute ∧
      oracleC10b.stat (combine_path (oracleC10b.complete "d")
        (([⟨"a", false⟩] : List MoveFile).getD 0 ⟨"", false⟩).path) ≠ some enoent) ∧
    (move_storage oracleC10b [⟨"a", false⟩] "s" "d" false MoveFlags.fail_if_exist =
      ⟨status_t.file_exist, "s",
        ⟨oracleC10b.stat (combine_path (oracleC10b.complete "d")
          (([⟨"a", false⟩] : List MoveFile).getD 0 ⟨"", false⟩).path),
          (0 : Int), OpTag.stat⟩,
        FSEvent.statE (oracleC10b.complete "d")
            (oracleC10b.stat (oracleC10b.complete "d")) ::
          (precheckScan oracleC10b (oracleC10b.complete "d") [⟨"a", false⟩] 0).1⟩ ∧
    ∀ ev ∈ (move_storage oracleC10b [⟨"a", false⟩] "s" "d" false
        MoveFlags.fail_if_exist).events,
      ev.isMutation = false) :=
  ⟨⟨by decide, by decide, by decide, by decide⟩,
    C10_nonenoent_file_probe_is_exists oracleC10b [⟨"a", false⟩] "s" "d" false 0
      (by decide) (by decide) (by decide) (fun l hl => by omega) (by decide)⟩

/-- Claim C5: if a file move or the partial-piece-store move fails
mid-relocation (with an error that also defeats the copy fallback, so
the loop's surviving error is set), `move_storage` returns the
fatal-disk-error status together with the original, unchanged save path
and a carrier naming the failure, and before returning it performs
exactly the rollback walk `rollbackEvents`: the already-processed
non-absolute files in reverse order, each moved file moved back from the
destination to its original source location, every copied file skipped.
Rollback errors are ignored: the oracle's outcomes for the rollback
moves are arbitrary and do not affect the returned status, path or
carrier. -/
theorem C5_rollback_on_failure (o : FSOracle) (files : List MoveFile)
    (save dest : String) (hasPartfile : Bool) (flags : MoveFlags)
    (c upto : Nat)
    (hflags : flags ≠ MoveFlags.fail_if_exist)
    (hroot : o.stat (o.complete dest) = none ∨
      (o.stat (o.complete dest) = some enoent ∧ o.mkdirs (o.complete dest) = none))
    (hfail :
      ((loopStateOf o flags save (o.complete dest) files).err = some c ∧
        upto = (loopStateOf o flags save (o.complete dest) files).break_idx) ∨
      ((loopStateOf o flags save (o.complete dest) files).err = none ∧
        hasPartfile = true ∧ o.partMove (o.complete dest) = some c ∧
        upto = files.length)) :
    (move_storage o files save dest hasPartfile flags).status =
      status_t.fatal_disk_error ∧
    (move_storage o files save dest hasPartfile flags).path = save ∧
    (move_storage o files save dest hasPartfile flags).ec.ec = some c ∧
    ((loopStateOf o flags save (o.complete dest) files).err = some c →
      (move_storage o files save dest hasPartfile flags).ec =
        ⟨some c, ((loopStateOf o flags save (o.complete dest) files).break_idx : Int),
          OpTag.rename⟩) ∧
    ((loopStateOf o flags save (o.complete dest) files).err = none →
      (move_storage o files save dest hasPartfile flags).ec =
        ⟨some c, -1, OpTag.partfile_move⟩) ∧
    ∃ pre, (move_storage o files save dest hasPartfile flags).events =
      pre ++ rollbackEvents o save (o.complete dest) files upto
        (loopStateOf o flags save (o.complete dest) files).copied := by
  obtain ⟨pre0, hms, _⟩ :=
    move_storage_reach o files save dest hasPartfile flags hflags hroot
  rcases hfail with ⟨herr, hupto⟩ | ⟨herr, hpf, hpm, hupto⟩
  · subst hupto
    have hmm : moveMain o files save (o.complete dest) hasPartfile flags pre0 =
        ⟨status_t.fatal_disk_error, save,
          ⟨some c, ((loopStateOf o flags save (o.complete dest) files).break_idx : Int),
            OpTag.rename⟩,
          pre0 ++ (loopStateOf o flags save (o.complete dest) files).events ++
            rollbackEvents o save (o.complete dest) files
              (loopStateOf o flags save (o.complete dest) files).break_idx
              (loopStateOf o flags save (o.complete dest) files).copied⟩ := by
      simp only [moveMain, herr]
    rw [hms, hmm]
    refine ⟨rfl, rfl, rfl, fun _ => rfl, ?_, ?_⟩
    · intro hnone
      rw [herr] at hnone
      cases hnone
    · exact ⟨pre0 ++ (loopStateOf o flags save (o.complete dest) files).events,
        by rw [List.append_assoc]⟩
  · subst hupto
    have hmm : moveMain o files save (o.complete dest) hasPartfile flags pre0 =
        ⟨status_t.fatal_disk_error, save, ⟨some c, -1, OpTag.partfile_move⟩,
          pre0 ++ (loopStateOf o flags save (o.complete dest) files).events ++
            [FSEvent.partE (o.complete dest) (some c)] ++
            rollbackEvents o save (o.complete dest) files files.length
              (loopStateOf o flags save (o.complete dest) files).copied⟩ := by
      simp only [moveMain, herr, hpf, hpm, if_true]
    rw [hms, hmm]
    refine ⟨rfl, rfl, rfl, ?_, fun _ => rfl, ?_⟩
    · intro hsome
      rw [herr] at hsome
      cases hsome
    · exact ⟨pre0 ++ (loopStateOf o flags save (o.complete dest) files).events ++
        [FSEvent.partE (o.complete dest) (some c)],
        by simp [List.append_assoc]⟩

/-- Oracle for the C5 witness: the destination root is missing and
creatable; the only file's move fails with permission-denied (which
defeats the copy fallback). -/
def oracleC5 : FSOracle :=
  ⟨fun p => p, fun _ => some enoent, fun _ => none, fun _ _ => some eacces,
    fun _ _ => none, fun _ => none, fun _ => none⟩

/-- Witness for C5: the failed move triggers a fatal return with the
original path and an (empty, since the failure was at index 0) rollback
walk. -/
theorem C5_rollback_on_failure_witness :
    (MoveFlags.always_replace ≠ MoveFlags.fail_if_exist ∧
      (oracleC5.stat (oracleC5.complete "d") = some enoent ∧
        oracleC5.mkdirs (oracleC5.complete "d") = none) ∧
      (loopStateOf oracleC5 MoveFlags.always_replace "s" (oracleC5.complete "d")
          [⟨"a", false⟩]).err = some eacces ∧
      (0 : Nat) = (loopStateOf oracleC5 MoveFlags.always_replace "s"
          (oracleC5.complete "d") [⟨"a", false⟩]).break_idx) ∧
    ((move_storage oracleC5 [⟨"a", false⟩] "s" "d" false
        MoveFlags.always_replace).status = status_t.fatal_disk_error ∧
      (move_storage oracleC5 [⟨"a", false⟩] "s" "d" false
        MoveFlags.always_replace).path = "s" ∧
      (move_storage oracleC5 [⟨"a", false⟩] "s" "d" false
        MoveFlags.always_replace).ec.ec = some eacces ∧
      ((loopStateOf oracleC5 MoveFlags.always_replace "s" (oracleC5.complete "d")
          [⟨"a", false⟩]).err = some eacces →
        (move_storage oracleC5 [⟨"a", false⟩] "s" "d" false
          MoveFlags.always_replace).ec =
          ⟨some eacces, ((loopStateOf oracleC5 MoveFlags.always_replace "s"
              (oracleC5.complete "d") [⟨"a", false⟩]).break_idx : Int),
            OpTag.rename⟩) ∧
      ((loopStateOf oracleC5 MoveFlags.always_replace "s" (oracleC5.complete "d")
          [⟨"a", false⟩]).err = none →
        (move_storage oracleC5 [⟨"a", false⟩] "s" "d" false
          MoveFlags.always_replace).ec = ⟨some eacces, -1, OpTag.partfile_move⟩) ∧
      ∃ pre, (move_storage oracleC5 [⟨"a", false⟩] "s" "d" false
          MoveFlags.always_replace).events =
        pre ++ rollbackEvents oracleC5 "s" (oracleC5.complete "d") [⟨"a", false⟩] 0
          (loopStateOf oracleC5 MoveFlags.always_replace "s" (oracleC5.complete "d")
            [⟨"a", false⟩]).copied) :=
  ⟨⟨by decide, ⟨rfl, rfl⟩, by decide, by decide⟩,
    C5_rollback_on_failure oracleC5 [⟨"a", false⟩] "s" "d" false
      MoveFlags.always_replace eacces 0 (by decide) (Or.inr ⟨rfl, rfl⟩)
      (Or.inl ⟨by decide, by decide⟩)⟩

/-! ### Copied-files bookkeeping helpers -/

def FSEvent.isCopy : FSEvent → Bool
  | FSEvent.copyE _ _ _ => true
  | _ => false

def FSEvent.isRemove : FSEvent → Bool
  | FSEvent.removeE _ _ => true
  | _ => false

theorem getD_set_self_of_lt : ∀ (l : List Bool) (i : Nat), i < l.length → ∀ v,
    (l.set i v).getD i false = v := by
  intro l
  induction l with
  | nil => intro i h; simp at h
  | cons a rest ih =>
    intro i h v
    cases i with
    | zero => rfl
    | succ j =>
      show (a :: rest.set j v).getD (j + 1) false = v
      rw [List.getD_cons_succ]
      exact ih j (by simpa using h) v

theorem getD_set_ne : ∀ (l : List Bool) (i j : Nat), j ≠ i → ∀ v,
    (l.set i v).getD j false = l.getD j false := by
  intro l
  induction l with
  | nil => intro i j _ v; rfl
  | cons a rest ih =>
    intro i j hne v
    cases i with
    | zero =>
      cases j with
      | zero => exact absurd rfl hne
      | succ j2 => rfl
    | succ i2 =>
      cases j with
      | zero => rfl
      | succ j2 =>
        show (a :: rest.set i2 v).getD (j2 + 1) false = (a :: rest).getD (j2 + 1) false
        rw [List.getD_cons_succ, List.getD_cons_succ]
        exact ih i2 j2 (by omega) v

theorem getD_set_false (l : List Bool) (i : Nat) (h : l.getD i false = false) :
    ∀ j, (l.set i false).getD j false = l.getD j false := by
  intro j
  by_cases hij : j = i
  · subst hij
    by_cases hlt : j < l.length
    · rw [getD_set_self_of_lt l j hlt false, h]
    · rw [List.set_eq_of_length_le (by omega)]
  · exact getD_set_ne l i j hij false

theorem getD_replicate_false : ∀ (n j : Nat), (List.replicate n false).getD j false = false := by
  intro n
  induction n with
  | zero => intro j; rfl
  | succ m ih =>
    intro j
    cases j with
    | zero => rfl
    | succ j2 =>
      show (false :: List.replicate m false).getD (j2 + 1) false = false
      rw [List.getD_cons_succ]
      exact ih j2

/-- A successful rename leaves only its move event, no surviving error
and no copied mark. -/
theorem moveOne_ok (o : FSOracle) (oldp newp : String)
    (h : o.moveRes oldp newp = none) :
    moveOne o oldp newp = ([FSEvent.moveE oldp newp none], none, false) := by
  simp [moveOne, h]

/-- A rename failing with a code other than `ENOENT`, `EINVAL` and
`EACCES` falls back to the copy; when the copy succeeds the file is
marked copied and no error survives. -/
theorem moveOne_fallback (o : FSOracle) (oldp newp : String) (c : Nat)
    (hm : o.moveRes oldp newp = some c)
    (hc1 : c ≠ enoent) (hc2 : c ≠ einval) (hc3 : c ≠ eacces)
    (hcp : o.copyRes oldp newp = none) :
    moveOne o oldp newp =
      ([FSEvent.moveE oldp newp (some c), FSEvent.copyE oldp newp none], none, true) := by
  simp [moveOne, hm, hc1, hc2, hc3, hcp]

/-- When every remaining non-absolute file's rename succeeds, the move
loop finishes cleanly: no error, unchanged pending status, unchanged
copied set (given its pending suffix is clear), and only move events. -/
theorem moveLoop_all_ok (o : FSOracle) (save newSave : String) :
    ∀ (fl : List MoveFile) (i : Nat) (ret : status_t) (copied : List Bool),
      (∀ j, i ≤ j → copied.getD j false = false) →
      (∀ jj, jj < fl.length → ¬ (fl.getD jj ⟨"", false⟩).absolute →
        o.moveRes (combine_path save (fl.getD jj ⟨"", false⟩).path)
          (combine_path newSave (fl.getD jj ⟨"", false⟩).path) = none) →
      (moveLoopGo o MoveFlags.always_replace save newSave fl i ret copied).err = none ∧
      (moveLoopGo o MoveFlags.always_replace save newSave fl i ret copied).ret = ret ∧
      (∀ j, (moveLoopGo o MoveFlags.always_replace save newSave fl i ret
        copied).copied.getD j false = copied.getD j false) ∧
      (∀ ev ∈ (moveLoopGo o MoveFlags.always_replace save newSave fl i ret
          copied).events, ∃ src dst r, ev = FSEvent.moveE src dst r) := by
  intro fl
  induction fl with
  | nil =>
    intro i ret copied _ _
    exact ⟨rfl, rfl, fun j => rfl, fun ev hev => by simp [moveLoopGo] at hev⟩
  | cons f rest ih =>
    intro i ret copied hacc hmv
    by_cases habs : f.absolute
    · rw [moveLoopGo, if_pos habs]
      exact ih (i + 1) ret copied (fun j hj => hacc j (by omega))
        (fun jj hjj ha => by
          have := hmv (jj + 1) (by simpa using hjj) (by simpa using ha)
          simpa using this)
    · have hm0 : o.moveRes (combine_path save f.path) (combine_path newSave f.path) =
          none := by
        have := hmv 0 (by simp) (by simpa using habs)
        simpa using this
      have hone := moveOne_ok o (combine_path save f.path) (combine_path newSave f.path) hm0
      have hstep : moveLoopGo o MoveFlags.always_replace save newSave (f :: rest) i ret
          copied =
          { moveLoopGo o MoveFlags.always_replace save newSave rest (i + 1) ret
              (copied.set i false) with
            events := [FSEvent.moveE (combine_path save f.path)
                (combine_path newSave f.path) none] ++
              (moveLoopGo o MoveFlags.always_replace save newSave rest (i + 1) ret
                (copied.set i false)).events } := by
        rw [moveLoopGo, if_neg habs]
        simp [hone]
      obtain ⟨ih1, ih2, ih3, ih4⟩ := ih (i + 1) ret (copied.set i false)
        (fun j hj => by
          rw [getD_set_ne copied i j (by omega)]
          exact hacc j (by omega))
        (fun jj hjj ha => by
          have := hmv (jj + 1) (by simpa using hjj) (by simpa using ha)
          simpa using this)
      rw [hstep]
      refine ⟨ih1, ih2, ?_, ?_⟩
      · intro j
        rw [ih3 j, getD_set_false copied i (hacc i (Nat.le_refl i)) j]
      · intro ev hev
        rcases List.mem_append.mp hev with hm | hm
        · simp at hm
          subst hm
          exact ⟨_, _, _, rfl⟩
        · exact ih4 ev hm

/-- When exactly one non-absolute file's rename fails, with a code that
triggers the copy fallback, and the copy succeeds (all other renames
succeeding), the move loop finishes cleanly with exactly that file
marked copied and exactly one copy event. -/
theorem moveLoop_one_fallback (o : FSOracle) (save newSave : String) (c : Nat)
    (hc1 : c ≠ enoent) (hc2 : c ≠ einval) (hc3 : c ≠ eacces) :
    ∀ (fl : List MoveFile) (d i : Nat) (ret : status_t) (copied : List Bool),
      i + fl.length ≤ copied.length →
      (∀ j, i ≤ j → copied.getD j false = false) →
      d < fl.length →
      ¬ (fl.getD d ⟨"", false⟩).absolute →
      (∀ jj, jj < fl.length → jj ≠ d → ¬ (fl.getD jj ⟨"", false⟩).absolute →
        o.moveRes (combine_path save (fl.getD jj ⟨"", false⟩).path)
          (combine_path newSave (fl.getD jj ⟨"", false⟩).path) = none) →
      o.moveRes (combine_path save (fl.getD d ⟨"", false⟩).path)
        (combine_path newSave (fl.getD d ⟨"", false⟩).path) = some c →
      o.copyRes (combine_path save (fl.getD d ⟨"", false⟩).path)
        (combine_path newSave (fl.getD d ⟨"", false⟩).path) = none →
      (moveLoopGo o MoveFlags.always_replace save newSave fl i ret copied).err = none ∧
      (moveLoopGo o MoveFlags.always_replace save newSave fl i ret copied).ret = ret ∧
      (∀ j, (moveLoopGo o MoveFlags.always_replace save newSave fl i ret
        copied).copied.getD j false =
        (copied.getD j false || decide (j = i + d))) ∧
      (moveLoopGo o MoveFlags.always_replace save newSave fl i ret
          copied).events.filter FSEvent.isCopy =
        [FSEvent.copyE (combine_path save (fl.getD d ⟨"", false⟩).path)
          (combine_path newSave (fl.getD d ⟨"", false⟩).path) none] ∧
      (moveLoopGo o MoveFlags.always_replace save newSave fl i ret
          copied).events.filter FSEvent.isRemove = [] := by
  intro fl
  induction fl with
  | nil => intro d i ret copied _ _ hd; simp at hd
  | cons f rest ih =>
    intro d i ret copied hlen hacc hd habs hothers hmove hcopy
    cases d with
    | zero =>
      simp only [List.getD_cons_zero] at habs hmove hcopy
      have hone := moveOne_fallback o (combine_path save f.path)
        (combine_path newSave f.path) c hmove hc1 hc2 hc3 hcopy
      have hstep : moveLoopGo o MoveFlags.always_replace save newSave (f :: rest) i ret
          copied =
          { moveLoopGo o MoveFlags.always_replace save newSave rest (i + 1) ret
              (copied.set i true) with
            events := [FSEvent.moveE (combine_path save f.path)
                (combine_path newSave f.path) (some c),
              FSEvent.copyE (combine_path save f.path)
                (combine_path newSave f.path) none] ++
              (moveLoopGo o MoveFlags.always_replace save newSave rest (i + 1) ret
                (copied.set i true)).events } := by
        rw [moveLoopGo, if_neg habs]
        simp [hone]
      obtain ⟨t1, t2, t3, t4⟩ := moveLoop_all_ok o save newSave rest (i + 1) ret
        (copied.set i true)
        (fun j hj => by
          rw [getD_set_ne copied i j (by omega)]
          exact hacc j (by omega))
        (fun jj hjj ha => by
          have := hothers (jj + 1) (by simpa using hjj) (by omega) (by simpa using ha)
          simpa using this)
      rw [hstep]
      refine ⟨t1, t2, ?_, ?_, ?_⟩
      · intro j
        rw [t3 j]
        by_cases hij : j = i
        · subst hij
          rw [getD_set_self_of_lt copied j (by simp at hlen; omega) true]
          simp [hacc j (Nat.le_refl j)]
        · rw [getD_set_ne copied i j hij]
          have hni : ¬ (j = i + 0) := by omega
          rw [decide_eq_false hni, Bool.or_false]
      · rw [List.filter_append]
        have hnil : (moveLoopGo o MoveFlags.always_replace save newSave rest (i + 1) ret
            (copied.set i true)).events.filter FSEvent.isCopy = [] := by
          rw [List.filter_eq_nil_iff]
          intro ev hev
          obtain ⟨src, dst, r, rfl⟩ := t4 ev hev
          simp [FSEvent.isCopy]
        rw [hnil]
        rfl
      · rw [List.filter_append]
        have hnil : (moveLoopGo o MoveFlags.always_replace save newSave rest (i + 1) ret
            (copied.set i true)).events.filter FSEvent.isRemove = [] := by
          rw [List.filter_eq_nil_iff]
          intro ev hev
          obtain ⟨src, dst, r, rfl⟩ := t4 ev hev
          simp [FSEvent.isRemove]
        rw [hnil]
        rfl
    | succ dd =>
      simp only [List.getD_cons_succ] at habs hmove hcopy
      by_cases hfabs : f.absolute
      · rw [moveLoopGo, if_pos hfabs]
        have := ih dd (i + 1) ret copied (by simp at hlen ⊢; omega)
          (fun j hj => hacc j (by omega)) (by simpa using hd) habs
          (fun jj hjj hne ha => by
            have := hothers (jj + 1) (by simpa using hjj) (by omega) (by simpa using ha)
            simpa using this)
          hmove hcopy
        obtain ⟨t1, t2, t3, t4, t5⟩ := this
        refine ⟨t1, t2, ?_, t4, t5⟩
        intro j
        rw [t3 j]
        have : (i + 1) + dd = i + (dd + 1) := by omega
        rw [this]
      · have hm0 : o.moveRes (combine_path save f.path) (combine_path newSave f.path) =
            none := by
          have := hothers 0 (by simp) (by omega) (by simpa using hfabs)
          simpa using this
        have hone := moveOne_ok o (combine_path save f.path)
          (combine_path newSave f.path) hm0
        have hstep : moveLoopGo o MoveFlags.always_replace save newSave (f :: rest) i ret
            copied =
            { moveLoopGo o MoveFlags.always_replace save newSave rest (i + 1) ret
                (copied.set i false) with
              events := [FSEvent.moveE (combine_path save f.path)
                  (combine_path newSave f.path) none] ++
                (moveLoopGo o MoveFlags.always_replace save newSave rest (i + 1) ret
                  (copied.set i false)).events } := by
          rw [moveLoopGo, if_neg hfabs]
          simp [hone]
        have := ih dd (i + 1) ret (copied.set i false)
          (by simp at hlen ⊢; omega)
          (fun j hj => by
            rw [getD_set_ne copied i j (by omega)]
            exact hacc j (by omega))
          (by simpa using hd) habs
          (fun jj hjj hne ha => by
            have := hothers (jj + 1) (by simpa using hjj) (by omega) (by simpa using ha)
            simpa using this)
          hmove hcopy
        obtain ⟨t1, t2, t3, t4, t5⟩ := this
        rw [hstep]
        refine ⟨t1, t2, ?_, ?_, ?_⟩
        · intro j
          rw [t3 j, getD_set_false copied i (hacc i (Nat.le_refl i)) j]
          have : (i + 1) + dd = i + (dd + 1) := by omega
          rw [this]
        · rw [List.filter_append, t4]
          rfl
        · rw [List.filter_append, t5]
          rfl

/-- When no file from index `i` on is marked copied, commit cleanup
removes nothing. -/
theorem commitRemove_none (o : FSOracle) (save : String) :
    ∀ (fl : List MoveFile) (copied : List Bool) (i : Nat),
      (∀ j, i ≤ j → copied.getD j false = false) →
      commitRemoveEvents o save fl copied i = [] := by
  intro fl
  induction fl with
  | nil => intro copied i _; rfl
  | cons f rest ih =>
    intro copied i hacc
    rw [commitRemoveEvents]
    rw [if_neg (by
      rintro ⟨-, hcp⟩
      rw [hacc i (Nat.le_refl i)] at hcp
      cases hcp)]
    rw [List.nil_append]
    exact ih copied (i + 1) (fun j hj => hacc j (by omega))

/-- When exactly the file at relative position `d` is marked copied (and
it is not absolute), commit cleanup removes exactly its source copy. -/
theorem commitRemove_single (o : FSOracle) (save : String) :
    ∀ (fl : List MoveFile) (d i : Nat) (copied : List Bool),
      d < fl.length →
      ¬ (fl.getD d ⟨"", false⟩).absolute →
      (∀ j, copied.getD j false = decide (j = i + d)) →
      commitRemoveEvents o save fl copied i =
        [FSEvent.removeE (combine_path save (fl.getD d ⟨"", false⟩).path)
          (o.removeRes (combine_path save (fl.getD d ⟨"", false⟩).path))] := by
  intro fl
  induction fl with
  | nil => intro d i copied hd; simp at hd
  | cons f rest ih =>
    intro d i copied hd habs hcp
    cases d with
    | zero =>
      simp only [List.getD_cons_zero] at habs ⊢
      rw [commitRemoveEvents]
      rw [if_pos ⟨habs, by rw [hcp i]; simp⟩]
      rw [commitRemove_none o save rest copied (i + 1) (fun j hj => by
        rw [hcp j]
        have : ¬ (j = i + 0) := by omega
        exact decide_eq_false this)]
      rfl
    | succ dd =>
      simp only [List.getD_cons_succ] at habs ⊢
      rw [commitRemoveEvents]
      rw [if_neg (by
        rintro ⟨-, hcpi⟩
        rw [hcp i] at hcpi
        have : ¬ (i = i + (dd + 1)) := by omega
        rw [decide_eq_false this] at hcpi
        cases hcpi)]
      rw [List.nil_append]
      exact ih dd (i + 1) copied (by simpa using hd) habs
        (fun j => by
          rw [hcp j]
          congr 1
          · rw [eq_iff_iff]
            omega)

/-- When no relocated file has a parent directory component, the
subdirectory set is empty. -/
theorem collectSubdirs_nil (files : List MoveFile)
    (h : ∀ f ∈ files, has_parent_path f.path = false) :
    collectSubdirs files = [] := by
  have key : ∀ (fl : List MoveFile) (acc : List String),
      (∀ f ∈ fl, has_parent_path f.path = false) →
      fl.foldl
        (fun acc f =>
          if f.absolute then acc
          else if has_parent_path f.path then insertSorted (parent_path f.path) acc
          else acc) acc = acc := by
    intro fl
    induction fl with
    | nil => intro acc _; rfl
    | cons f rest ih =>
      intro acc hall
      rw [List.foldl_cons]
      have hf : has_parent_path f.path = false := hall f (List.mem_cons_self f rest)
      by_cases habs : f.absolute
      · rw [if_pos habs]
        exact ih acc (fun g hg => hall g (List.mem_cons_of_mem f hg))
      · rw [if_neg habs, hf]
        simp only [Bool.false_eq_true, if_false]
        exact ih acc (fun g hg => hall g (List.mem_cons_of_mem f hg))
  exact key files [] h

theorem filter_isCopy_nil (l : List FSEvent)
    (h : ∀ ev ∈ l, ∀ src dst r, ev ≠ FSEvent.copyE src dst r) :
    l.filter FSEvent.isCopy = [] := by
  rw [List.filter_eq_nil_iff]
  intro ev hev
  cases ev with
  | copyE a b r => exact fun _ => h _ hev a b r rfl
  | statE p r => simp [FSEvent.isCopy]
  | mkdirE p r => simp [FSEvent.isCopy]
  | moveE s d r => simp [FSEvent.isCopy]
  | removeE p r => simp [FSEvent.isCopy]
  | partE p r => simp [FSEvent.isCopy]

theorem filter_isRemove_nil (l : List FSEvent)
    (h : ∀ ev ∈ l, ∀ src r, ev ≠ FSEvent.removeE src r) :
    l.filter FSEvent.isRemove = [] := by
  rw [List.filter_eq_nil_iff]
  intro ev hev
  cases ev with
  | removeE p r => exact fun _ => h _ hev p r rfl
  | statE p r => simp [FSEvent.isRemove]
  | mkdirE p r => simp [FSEvent.isRemove]
  | moveE s d r => simp [FSEvent.isRemove]
  | copyE a b r => simp [FSEvent.isRemove]
  | partE p r => simp [FSEvent.isRemove]

/-- Oracle for the C7 counterexample: the destination root is missing
and creatable; the only file's move fails with "invalid argument"; a
copy would succeed but is never attempted. -/
def oracleC7 : FSOracle :=
  ⟨fun p => p, fun _ => some enoent, fun _ => none, fun _ _ => some einval,
    fun _ _ => none, fun _ => none, fun _ => none⟩

/-- Counterexample to claim C7 as stated: when the per-file move fails
with the "invalid argument" error code, the source does not fall back to
copying — the condition at source lines 279–281 excludes `EINVAL` (and
`EACCES`) from the fallback — so the relocation aborts with
fatal-disk-error and no copy is ever attempted. -/
theorem C7_counterexample :
    move_storage oracleC7 [⟨"a", false⟩] "s" "d" false MoveFlags.always_replace =
      ⟨status_t.fatal_disk_error, "s", ⟨some einval, 0, OpTag.rename⟩,
        [FSEvent.statE "d" (some enoent), FSEvent.mkdirE "d" none,
          FSEvent.moveE "s/a" "d/a" (some einval)]⟩ ∧
    (move_storage oracleC7 [⟨"a", false⟩] "s" "d" false
        MoveFlags.always_replace).events.filter FSEvent.isCopy = [] ∧
    status_t.fatal_disk_error ≠ status_t.no_error :=
  ⟨by decide, by decide, by decide⟩

/-- Claim C7, amended: during relocation under the default policy, when
the per-file move fails for one specific file with an error code other
than not-found, invalid-argument and permission-denied (e.g. the
cross-device code `EXDEV`) — the codes that actually trigger the copy
fallback at source lines 277–289; "invalid argument" does not (see the
counterexample) — and succeeds for all other files, `move_storage` falls
back to copying that file to the destination and marks exactly that
file index in the copied-files set, so that after the successful
relocation that file's source copy is the one deleted during commit
cleanup. -/
theorem C7_fallback_copy_cleanup (o : FSOracle) (files : List MoveFile)
    (save dest : String) (k c : Nat)
    (hc1 : c ≠ enoent) (hc2 : c ≠ einval) (hc3 : c ≠ eacces)
    (hroot : o.stat (o.complete dest) = none ∨
      (o.stat (o.complete dest) = some enoent ∧ o.mkdirs (o.complete dest) = none))
    (hk : k < files.length)
    (hkabs : ¬ (files.getD k ⟨"", false⟩).absolute)
    (hothers : ∀ jj, jj < files.length → jj ≠ k →
      ¬ (files.getD jj ⟨"", false⟩).absolute →
      o.moveRes (combine_path save (files.getD jj ⟨"", false⟩).path)
        (combine_path (o.complete dest) (files.getD jj ⟨"", false⟩).path) = none)
    (hmovek : o.moveRes (combine_path save (files.getD k ⟨"", false⟩).path)
      (combine_path (o.complete dest) (files.getD k ⟨"", false⟩).path) = some c)
    (hcopyk : o.copyRes (combine_path save (files.getD k ⟨"", false⟩).path)
      (combine_path (o.complete dest) (files.getD k ⟨"", false⟩).path) = none)
    (hflat : ∀ f ∈ files, has_parent_path f.path = false) :
    (move_storage o files save dest false MoveFlags.always_replace).status =
      status_t.no_error ∧
    (move_storage o files save dest false MoveFlags.always_replace).path =
      o.complete dest ∧
    (∀ j, (loopStateOf o MoveFlags.always_replace save (o.complete dest)
      files).copied.getD j false = decide (j = k)) ∧
    (move_storage o files save dest false
        MoveFlags.always_replace).events.filter FSEvent.isCopy =
      [FSEvent.copyE (combine_path save (files.getD k ⟨"", false⟩).path)
        (combine_path (o.complete dest) (files.getD k ⟨"", false⟩).path) none] ∧
    (move_storage o files save dest false
        MoveFlags.always_replace).events.filter FSEvent.isRemove =
      [FSEvent.removeE (combine_path save (files.getD k ⟨"", false⟩).path)
        (o.removeRes (combine_path save (files.getD k ⟨"", false⟩).path))] := by
  obtain ⟨pre0, hms, hpre⟩ := move_storage_reach o files save dest false
    MoveFlags.always_replace (by simp) hroot
  obtain ⟨l1, l2, l3, l4, l5⟩ := moveLoop_one_fallback o save (o.complete dest) c
    hc1 hc2 hc3 files k 0 status_t.no_error (List.replicate files.length false)
    (by simp) (fun j _ => getD_replicate_false _ _) hk hkabs hothers hmovek hcopyk
  have hl3 : ∀ j, (loopStateOf o MoveFlags.always_replace save (o.complete dest)
      files).copied.getD j false = decide (j = k) := by
    intro j
    show (moveLoopGo o MoveFlags.always_replace save (o.complete dest) files 0
      status_t.no_error (List.replicate files.length false)).copied.getD j false = _
    rw [l3 j, getD_replicate_false, Bool.false_or, Nat.zero_add]
  have l1' : (loopStateOf o MoveFlags.always_replace save (o.complete dest)
      files).err = none := l1
  have l2' : (loopStateOf o MoveFlags.always_replace save (o.complete dest)
      files).ret = status_t.no_error := l2
  have hcommit : commitRemoveEvents o save files
      (loopStateOf o MoveFlags.always_replace save (o.complete dest) files).copied 0 =
      [FSEvent.removeE (combine_path save (files.getD k ⟨"", false⟩).path)
        (o.removeRes (combine_path save (files.getD k ⟨"", false⟩).path))] :=
    commitRemove_single o save files k 0 _ hk hkabs
      (fun j => by rw [hl3 j, Nat.zero_add])
  have hprune : pruneAllEvents o save (collectSubdirs files) = [] := by
    rw [collectSubdirs_nil files hflat]
    rfl
  have hmm : moveMain o files save (o.complete dest) false MoveFlags.always_replace
      pre0 =
      ⟨(loopStateOf o MoveFlags.always_replace save (o.complete dest) files).ret,
        o.complete dest, ec0,
        pre0 ++ (loopStateOf o MoveFlags.always_replace save (o.complete dest)
            files).events ++
          commitRemoveEvents o save files
            (loopStateOf o MoveFlags.always_replace save (o.complete dest)
              files).copied 0 ++
          pruneAllEvents o save (collectSubdirs files)⟩ := by
    simp only [moveMain, l1', Bool.false_eq_true, if_false]
  rw [hms, hmm]
  have l4' : (loopStateOf o MoveFlags.always_replace save (o.complete dest)
      files).events.filter FSEvent.isCopy =
      [FSEvent.copyE (combine_path save (files.getD k ⟨"", false⟩).path)
        (combine_path (o.complete dest) (files.getD k ⟨"", false⟩).path) none] := l4
  have l5' : (loopStateOf o MoveFlags.always_replace save (o.complete dest)
      files).events.filter FSEvent.isRemove = [] := l5
  refine ⟨l2', rfl, hl3, ?_, ?_⟩
  · show (pre0 ++ _ ++ _ ++ _).filter FSEvent.isCopy = _
    rw [List.filter_append, List.filter_append, List.filter_append]
    rw [filter_isCopy_nil pre0 (fun ev hev src dst r => (hpre ev hev src dst r).1),
      l4', hcommit, hprune]
    simp [FSEvent.isCopy]
  · show (pre0 ++ _ ++ _ ++ _).filter FSEvent.isRemove = _
    rw [List.filter_append, List.filter_append, List.filter_append]
    rw [filter_isRemove_nil pre0 (fun ev hev src r => (hpre ev hev src src r).2.1),
      l5', hcommit, hprune]
    simp [FSEvent.isRemove]

/-- Oracle for the C7 amended witness: the move of `b` fails with the
cross-device code; everything else succeeds. -/
def oracleC7b : FSOracle :=
  ⟨fun p => p, fun _ => some enoent, fun _ => none,
    (fun src _ => if src = "s/b" then some exdev else none),
    fun _ _ => none, fun _ => none, fun _ => none⟩

/-- Witness for the amended C7 at a three-file layout whose middle file
needs the copy fallback. -/
theorem C7_fallback_copy_cleanup_witness :
    (exdev ≠ enoent ∧ exdev ≠ einval ∧ exdev ≠ eacces ∧
      (oracleC7b.stat (oracleC7b.complete "d") = some enoent ∧
        oracleC7b.mkdirs (oracleC7b.complete "d") = none) ∧
      1 < ([⟨"a", false⟩, ⟨"b", false⟩, ⟨"c", false⟩] : List MoveFile).length ∧
      ¬ (([⟨"a", false⟩, ⟨"b", false⟩, ⟨"c", false⟩] : List MoveFile).getD 1
        ⟨"", false⟩).absolute) ∧
    ((move_storage oracleC7b [⟨"a", false⟩, ⟨"b", false⟩, ⟨"c", false⟩] "s" "d" false
        MoveFlags.always_replace).status = status_t.no_error ∧
      (move_storage oracleC7b [⟨"a", false⟩, ⟨"b", false⟩, ⟨"c", false⟩] "s" "d" false
        MoveFlags.always_replace).path = oracleC7b.complete "d" ∧
      (∀ j, (loopStateOf oracleC7b MoveFlags.always_replace "s" (oracleC7b.complete "d")
        [⟨"a", false⟩, ⟨"b", false⟩, ⟨"c", false⟩]).copied.getD j false =
        decide (j = 1)) ∧
      (move_storage oracleC7b [⟨"a", false⟩, ⟨"b", false⟩, ⟨"c", false⟩] "s" "d" false
          MoveFlags.always_replace).events.filter FSEvent.isCopy =
        [FSEvent.copyE (combine_path "s"
            (([⟨"a", false⟩, ⟨"b", false⟩, ⟨"c", false⟩] : List MoveFile).getD 1
              ⟨"", false⟩).path)
          (combine_path (oracleC7b.complete "d")
            (([⟨"a", false⟩, ⟨"b", false⟩, ⟨"c", false⟩] : List MoveFile).getD 1
              ⟨"", false⟩).path) none] ∧
      (move_storage oracleC7b [⟨"a", false⟩, ⟨"b", false⟩, ⟨"c", false⟩] "s" "d" false
          MoveFlags.always_replace).events.filter FSEvent.isRemove =
        [FSEvent.removeE (combine_path "s"
            (([⟨"a", false⟩, ⟨"b", false⟩, ⟨"c", false⟩] : List MoveFile).getD 1
              ⟨"", false⟩).path)
          (oracleC7b.removeRes (combine_path "s"
            (([⟨"a", false⟩, ⟨"b", false⟩, ⟨"c", false⟩] : List MoveFile).getD 1
              ⟨"", false⟩).path))]) :=
  ⟨⟨by decide, by decide, by decide, ⟨rfl, rfl⟩, by decide, by decide⟩,
    C7_fallback_copy_cleanup oracleC7b [⟨"a", false⟩, ⟨"b", false⟩, ⟨"c", false⟩]
      "s" "d" 1 exdev (by decide) (by decide) (by decide) (Or.inr ⟨rfl, rfl⟩)
      (by decide) (by decide) (by decide) (by decide) (by decide) (by decide)⟩

/-- The events the move loop produces under the dont-replace policy when
every attempted rename succeeds: for each non-absolute file in order,
the existence probe of its destination, followed by the rename exactly
when the probe does not report the destination as present. -/
def dontReplaceSegs (o : FSOracle) (save newSave : String) : List MoveFile → List FSEvent
  | [] => []
  | f :: rest =>
    (if f.absolute then []
     else
       FSEvent.statE (combine_path newSave f.path)
           (o.stat (combine_path newSave f.path)) ::
         (if o.pathExists (combine_path newSave f.path) then []
          else [FSEvent.moveE (combine_path save f.path) (combine_path newSave f.path)
            (o.moveRes (combine_path save f.path) (combine_path newSave f.path))])) ++
    dontReplaceSegs o save newSave rest

/-- Under the dont-replace policy with every attempted rename
succeeding, the move loop finishes with no error, an unchanged copied
set, exactly the probe/rename segments as events, and the needs-rescan
status exactly when it was already pending or some non-absolute file's
destination existed. -/
theorem moveLoop_dont_replace (o : FSOracle) (save newSave : String) :
    ∀ (fl : List MoveFile) (i : Nat) (ret : status_t) (copied : List Bool),
      (ret = status_t.no_error ∨ ret = status_t.need_full_check) →
      (∀ j, i ≤ j → copied.getD j false = false) →
      (∀ jj, jj < fl.length → ¬ (fl.getD jj ⟨"", false⟩).absolute →
        ¬ o.pathExists (combine_path newSave (fl.getD jj ⟨"", false⟩).path) →
        o.moveRes (combine_path save (fl.getD jj ⟨"", false⟩).path)
          (combine_path newSave (fl.getD jj ⟨"", false⟩).path) = none) →
      (moveLoopGo o MoveFlags.dont_replace save newSave fl i ret copied).err = none ∧
      (∀ j, (moveLoopGo o MoveFlags.dont_replace save newSave fl i ret
        copied).copied.getD j false = copied.getD j false) ∧
      (moveLoopGo o MoveFlags.dont_replace save newSave fl i ret copied).events =
        dontReplaceSegs o save newSave fl ∧
      ((moveLoopGo o MoveFlags.dont_replace save newSave fl i ret copied).ret =
          status_t.need_full_check ↔
        (ret = status_t.need_full_check ∨
          ∃ jj, jj < fl.length ∧ ¬ (fl.getD jj ⟨"", false⟩).absolute ∧
            o.pathExists (combine_path newSave (fl.getD jj ⟨"", false⟩).path) = true)) := by
  intro fl
  induction fl with
  | nil =>
    intro i ret copied _ _ _
    refine ⟨rfl, fun j => rfl, rfl, ?_⟩
    constructor
    · intro h
      exact Or.inl h
    · rintro (h | ⟨jj, hjj, _, _⟩)
      · exact h
      · simp at hjj
  | cons f rest ih =>
    intro i ret copied hret hacc hmv
    by_cases hfabs : f.absolute
    · rw [moveLoopGo, if_pos hfabs]
      obtain ⟨t1, t2, t3, t4⟩ := ih (i + 1) ret copied hret
        (fun j hj => hacc j (by omega))
        (fun jj hjj ha hpe => by
          have := hmv (jj + 1) (by simpa using hjj) (by simpa using ha)
            (by simpa using hpe)
          simpa using this)
      refine ⟨t1, t2, ?_, ?_⟩
      · rw [t3, dontReplaceSegs, if_pos hfabs, List.nil_append]
      · rw [t4]
        constructor
        · rintro (h | ⟨jj, hjj, ha, hpe⟩)
          · exact Or.inl h
          · exact Or.inr ⟨jj + 1, by simpa using hjj, by simpa using ha,
              by simpa using hpe⟩
        · rintro (h | ⟨jj, hjj, ha, hpe⟩)
          · exact Or.inl h
          · cases jj with
            | zero =>
              simp only [List.getD_cons_zero] at ha
              exact absurd hfabs ha
            | succ jj2 =>
              exact Or.inr ⟨jj2, by simp at hjj; omega, by simpa using ha,
                by simpa using hpe⟩
    · by_cases hpe : o.pathExists (combine_path newSave f.path)
      · have hstep : moveLoopGo o MoveFlags.dont_replace save newSave (f :: rest) i ret
            copied =
            { moveLoopGo o MoveFlags.dont_replace save newSave rest (i + 1)
                (if ret = status_t.no_error then status_t.need_full_check else ret)
                copied with
              events := FSEvent.statE (combine_path newSave f.path)
                  (o.stat (combine_path newSave f.path)) ::
                (moveLoopGo o MoveFlags.dont_replace save newSave rest (i + 1)
                  (if ret = status_t.no_error then status_t.need_full_check else ret)
                  copied).events } := by
          rw [moveLoopGo, if_neg hfabs, if_pos ⟨rfl, hpe⟩]
          rfl
        have hret2 : (if ret = status_t.no_error then status_t.need_full_check
            else ret) = status_t.need_full_check := by
          rcases hret with h | h <;> simp [h]
        obtain ⟨t1, t2, t3, t4⟩ := ih (i + 1)
          (if ret = status_t.no_error then status_t.need_full_check else ret) copied
          (Or.inr hret2) (fun j hj => hacc j (by omega))
          (fun jj hjj ha hpe2 => by
            have := hmv (jj + 1) (by simpa using hjj) (by simpa using ha)
              (by simpa using hpe2)
            simpa using this)
        rw [hstep]
        refine ⟨t1, t2, ?_, ?_⟩
        · rw [t3, dontReplaceSegs, if_neg hfabs, if_pos hpe]
          rfl
        · rw [t4, hret2]
          constructor
          · intro _
            exact Or.inr ⟨0, by simp, by simpa using hfabs, by simpa using hpe⟩
          · intro _
            exact Or.inl rfl
      · have hm0 : o.moveRes (combine_path save f.path) (combine_path newSave f.path) =
            none := by
          have := hmv 0 (by simp) (by simpa using hfabs) (by simpa using hpe)
          simpa using this
        have hone := moveOne_ok o (combine_path save f.path)
          (combine_path newSave f.path) hm0
        have hstep : moveLoopGo o MoveFlags.dont_replace save newSave (f :: rest) i ret
            copied =
            { moveLoopGo o MoveFlags.dont_replace save newSave rest (i + 1) ret
                (copied.set i false) with
              events := FSEvent.statE (combine_path newSave f.path)
                  (o.stat (combine_path newSave f.path)) ::
                FSEvent.moveE (combine_path save f.path) (combine_path newSave f.path)
                  none ::
                (moveLoopGo o MoveFlags.dont_replace save newSave rest (i + 1) ret
                  (copied.set i false)).events } := by
          rw [moveLoopGo, if_neg hfabs, if_neg (by
            rintro ⟨-, hx⟩
            exact hpe hx)]
          simp [hone]
        obtain ⟨t1, t2, t3, t4⟩ := ih (i + 1) ret (copied.set i false) hret
          (fun j hj => by
            rw [getD_set_ne copied i j (by omega)]
            exact hacc j (by omega))
          (fun jj hjj ha hpe2 => by
            have := hmv (jj + 1) (by simpa using hjj) (by simpa using ha)
              (by simpa using hpe2)
            simpa using this)
        rw [hstep]
        refine ⟨t1, ?_, ?_, ?_⟩
        · intro j
          rw [t2 j, getD_set_false copied i (hacc i (Nat.le_refl i)) j]
        · rw [t3, dontReplaceSegs, if_neg hfabs, if_neg hpe, hm0]
          rfl
        · rw [t4]
          constructor
          · rintro (h | ⟨jj, hjj, ha, hpe2⟩)
            · exact Or.inl h
            · exact Or.inr ⟨jj + 1, by simpa using hjj, by simpa using ha,
                by simpa using hpe2⟩
          · rintro (h | ⟨jj, hjj, ha, hpe2⟩)
            · exact Or.inl h
            · cases jj with
              | zero =>
                simp only [List.getD_cons_zero] at hpe2
                exact absurd hpe2 (by simpa using hpe)
              | succ jj2 =>
                exact Or.inr ⟨jj2, by simp at hjj; omega, by simpa using ha,
                  by simpa using hpe2⟩

/-- Claim C8: under the dont-replace policy, every non-absolute file
whose destination path already exists is skipped without error and left
at the source (its loop segment is just the existence probe, and commit
cleanup removes nothing), every other non-absolute file is moved (its
segment is the probe followed by the successful rename), and if at least
one file was skipped and no fatal error occurred, `move_storage` returns
the needs-rescan status (`need_full_check`) together with the resolved
new save path. -/
theorem C8_dont_replace_skip_rescan (o : FSOracle) (files : List MoveFile)
    (save dest : String)
    (hroot : o.stat (o.complete dest) = none ∨
      (o.stat (o.complete dest) = some enoent ∧ o.mkdirs (o.complete dest) = none))
    (hmoves : ∀ jj, jj < files.length → ¬ (files.getD jj ⟨"", false⟩).absolute →
      ¬ o.pathExists (combine_path (o.complete dest) (files.getD jj ⟨"", false⟩).path) →
      o.moveRes (combine_path save (files.getD jj ⟨"", false⟩).path)
        (combine_path (o.complete dest) (files.getD jj ⟨"", false⟩).path) = none)
    (hskip : ∃ jj, jj < files.length ∧ ¬ (files.getD jj ⟨"", false⟩).absolute ∧
      o.pathExists (combine_path (o.complete dest)
        (files.getD jj ⟨"", false⟩).path) = true) :
    (move_storage o files save dest false MoveFlags.dont_replace).status =
      status_t.need_full_check ∧
    (move_storage o files save dest false MoveFlags.dont_replace).path =
      o.complete dest ∧
    (loopStateOf o MoveFlags.dont_replace save (o.complete dest) files).err = none ∧
    (loopStateOf o MoveFlags.dont_replace save (o.complete dest) files).events =
      dontReplaceSegs o save (o.complete dest) files ∧
    commitRemoveEvents o save files
      (loopStateOf o MoveFlags.dont_replace save (o.complete dest) files).copied 0 =
      [] := by
  obtain ⟨pre0, hms, hpre⟩ := move_storage_reach o files save dest false
    MoveFlags.dont_replace (by simp) hroot
  obtain ⟨t1, t2, t3, t4⟩ := moveLoop_dont_replace o save (o.complete dest) files 0
    status_t.no_error (List.replicate files.length false) (Or.inl rfl)
    (fun j _ => getD_replicate_false _ _) hmoves
  have t1' : (loopStateOf o MoveFlags.dont_replace save (o.complete dest)
      files).err = none := t1
  have t3' : (loopStateOf o MoveFlags.dont_replace save (o.complete dest)
      files).events = dontReplaceSegs o save (o.complete dest) files := t3
  have hrfc : (loopStateOf o MoveFlags.dont_replace save (o.complete dest) files).ret =
      status_t.need_full_check := by
    have := t4.mpr (Or.inr hskip)
    exact this
  have hcz : ∀ j, (loopStateOf o MoveFlags.dont_replace save (o.complete dest)
      files).copied.getD j false = false := by
    intro j
    have := t2 j
    rw [getD_replicate_false] at this
    exact this
  have hcommit : commitRemoveEvents o save files
      (loopStateOf o MoveFlags.dont_replace save (o.complete dest) files).copied 0 =
      [] :=
    commitRemove_none o save files _ 0 (fun j _ => hcz j)
  have hmm : moveMain o files save (o.complete dest) false MoveFlags.dont_replace
      pre0 =
      ⟨(loopStateOf o MoveFlags.dont_replace save (o.complete dest) files).ret,
        o.complete dest, ec0,
        pre0 ++ (loopStateOf o MoveFlags.dont_replace save (o.complete dest)
            files).events ++
          commitRemoveEvents o save files
            (loopStateOf o MoveFlags.dont_replace save (o.complete dest)
              files).copied 0 ++
          pruneAllEvents o save (collectSubdirs files)⟩ := by
    simp only [moveMain, t1', Bool.false_eq_true, if_false]
  rw [hms, hmm]
  exact ⟨hrfc, rfl, t1', t3', hcommit⟩

/-- Oracle for the C8 witness: the destination of `a` exists, the
destination of `b` does not; every rename succeeds. -/
def oracleC8 : FSOracle :=
  ⟨fun p => p, (fun p => if p = "d/a" then none else some enoent), fun _ => none,
    fun _ _ => none, fun _ _ => none, fun _ => none, fun _ => none⟩

/-- Witness for C8 at a two-file layout with one skipped file. -/
theorem C8_dont_replace_skip_rescan_witness :
    ((oracleC8.stat (oracleC8.complete "d") = some enoent ∧
        oracleC8.mkdirs (oracleC8.complete "d") = none) ∧
      (∃ jj, jj < ([⟨"a", false⟩, ⟨"b", false⟩] : List MoveFile).length ∧
        ¬ (([⟨"a", false⟩, ⟨"b", false⟩] : List MoveFile).getD jj ⟨"", false⟩).absolute ∧
        oracleC8.pathExists (combine_path (oracleC8.complete "d")
          (([⟨"a", false⟩, ⟨"b", false⟩] : List MoveFile).getD jj
            ⟨"", false⟩).path) = true)) ∧
    ((move_storage oracleC8 [⟨"a", false⟩, ⟨"b", false⟩] "s" "d" false
        MoveFlags.dont_replace).status = status_t.need_full_check ∧
      (move_storage oracleC8 [⟨"a", false⟩, ⟨"b", false⟩] "s" "d" false
        MoveFlags.dont_replace).path = oracleC8.complete "d" ∧
      (loopStateOf oracleC8 MoveFlags.dont_replace "s" (oracleC8.complete "d")
        [⟨"a", false⟩, ⟨"b", false⟩]).err = none ∧
      (loopStateOf oracleC8 MoveFlags.dont_replace "s" (oracleC8.complete "d")
        [⟨"a", false⟩, ⟨"b", false⟩]).events =
        dontReplaceSegs oracleC8 "s" (oracleC8.complete "d")
          [⟨"a", false⟩, ⟨"b", false⟩] ∧
      commitRemoveEvents oracleC8 "s" [⟨"a", false⟩, ⟨"b", false⟩]
        (loopStateOf oracleC8 MoveFlags.dont_replace "s" (oracleC8.complete "d")
          [⟨"a", false⟩, ⟨"b", false⟩]).copied 0 = []) :=
  ⟨⟨⟨rfl, rfl⟩, ⟨0, by decide, by decide, by decide⟩⟩,
    C8_dont_replace_skip_rescan oracleC8 [⟨"a", false⟩, ⟨"b", false⟩] "s" "d"
      (Or.inr ⟨rfl, rfl⟩) (by decide) ⟨0, by decide, by decide, by decide⟩⟩

end StorageUtils
